import Mathlib

/-!
Verification of the xray-oxide asset-discovery core: the virtual filesystem
(`Filesystem::register`, `Filesystem::initialize`, `Filesystem::process_archive`,
`Filesystem::file_from_archive`, `open_chunk`) and the LZH decoder
(`lzhuf::decode::Decoder`).  Rust integer types are modelled as `Nat` with
explicit `% 2^w` where overflow matters; Rust strings are modelled as
`List Char` with structurally recursive models of the `str` operations the
source uses; `HashMap<PathBuf, _>` is modelled as a function map; I/O (file
reads, canonicalisation, INI parsing by the external `ini` crate, LZO
decompression by the external `lzo1x_1` crate, the legacy code-page decoder
of the `local_encoding` crate) is modelled by explicit oracle parameters.
Fallible Rust code returns `Except`; a Rust `panic` (`unwrap`, `todo!`,
slice-length mismatch) is a distinguished error constructor.
-/

set_option maxRecDepth 16000

namespace XrayOxide

/-! ## Strings and the small utilities (src/xray-oxide-core/src/ext.rs) -/

/-- A Rust string, as its character list. -/
abbrev Str := List Char

/-- `str::trim`: drop whitespace from both ends. -/
def trimStr (s : Str) : Str :=
  ((s.dropWhile Char.isWhitespace).reverse.dropWhile Char.isWhitespace).reverse

/-- `str::split(sep)` for a one-character separator: empty pieces are kept. -/
def splitOnChar (sep : Char) : Str → List Str
  | [] => [[]]
  | c :: rest =>
    let r := splitOnChar sep rest
    if c = sep then [] :: r
    else
      match r with
      | [] => [[c]]
      | hd :: tl => (c :: hd) :: tl

/-- `str::split_once(sep)`: split at the first occurrence of `sep`. -/
def splitOnceChar (sep : Char) : Str → Option (Str × Str)
  | [] => none
  | c :: rest =>
    if c = sep then some ([], rest)
    else (splitOnceChar sep rest).map (fun p => (c :: p.1, p.2))

/-- `StrExt::is_bool_true` (ext.rs lines 7-11). -/
def is_bool_true (s : Str) : Bool :=
  s == "on".toList || s == "yes".toList || s == "true".toList || s == "1".toList

/-! ## Virtual files and `Filesystem::register` (src/xray-oxide-core/src/filesystem/mod.rs) -/

/-- A `PathBuf` used as a virtual-path key, modelled as its list of
components.  The empty list models the empty path `""`. -/
abbrev FsPathKey := List Str

/-- `VirtualFile` (src/xray-oxide-core/src/filesystem/archive.rs, lines 72-79). -/
structure VirtualFile where
  name : FsPathKey
  archive : Option Nat
  size_real : Nat
  size_compressed : Nat
  ptr : Nat
deriving DecidableEq

/-- The `files : HashMap<PathBuf, VirtualFile>` field of `Filesystem`,
modelled as a function map (`HashMap::insert` overwrites). -/
def FilesMap := FsPathKey → Option VirtualFile

/-- `HashMap::insert`: store `v` at `k`, overwriting any earlier entry. -/
def FilesMap.insert (m : FilesMap) (k : FsPathKey) (v : VirtualFile) : FilesMap :=
  fun k' => if k' = k then some v else m k'

/-- The empty map. -/
def FilesMap.empty : FilesMap := fun _ => none

/-- `Path::ancestors`: the path itself, then each successive parent, down to
the empty path — in the component model, the prefixes of `p` in decreasing
length: `take n p, take (n-1) p, …, take 0 p`. -/
def ancestors (p : FsPathKey) : List FsPathKey :=
  (List.range (p.length + 1)).map (fun k => p.take (p.length - k))

/-- The ancestor-climbing loop of `Filesystem::register`
(mod.rs lines 186-196): for each ancestor insert a descriptor built from the
current `archive_id` and zero sizes; `HashMap::insert` returns the previous
value, and the loop breaks as soon as an entry was already present (note the
insertion has already replaced that entry); `archive_id` is set to `None`
after every non-breaking iteration. -/
def registerAncestors (m : FilesMap) (archiveId : Option Nat) :
    List FsPathKey → FilesMap
  | [] => m
  | a :: rest =>
      let old := m a
      let m' := m.insert a ⟨a, archiveId, 0, 0, 0⟩
      if old.isSome then m' else registerAncestors m' none rest

/-- `Filesystem::register` (mod.rs lines 170-198): insert the descriptor at
`path` (overwriting), then climb the proper ancestors (`ancestors().skip(1)`). -/
def register (m : FilesMap) (path : FsPathKey) (archive : Option Nat)
    (size_real size_compressed ptr : Nat) : FilesMap :=
  let m1 := m.insert path ⟨path, archive, size_real, size_compressed, ptr⟩
  registerAncestors m1 archive (ancestors path).tail

/-! ## Configuration parsing: `Filesystem::initialize` (mod.rs lines 50-135)

The disk-scanning call `self.recurse(path.path(), path.recurse())` inside the
line loop is I/O and is modelled by an oracle `recOracle : Str → Bool → Bool`
(`false` = the scan returned an error).  `PathBuf::push` is modelled as
joining with `/` (no absolute `add` components appear).  The lines of the
configuration file are taken as an explicit list, as produced by
`str::lines`. -/

/-- Simplified `PathBuf::push`. -/
def pathPush (root a : Str) : Str := root ++ '/' :: a

/-- `FSPath` (src/xray-oxide-core/src/filesystem/fs_path.rs, lines 6-40). -/
structure FSPath where
  path : Str
  root : Str
  add : Option Str
  def_ext : Option Str
  filter_caption : Option Str
  recurse : Bool
  notify : Bool
deriving DecidableEq

/-- `FSPath::new`: `path` is `root` with `add` pushed onto it when present. -/
def FSPath.new (root : Str) (add def_ext filter_caption : Option Str)
    (recurse notify : Bool) : FSPath :=
  { path := match add with
      | some a => pathPush root a
      | none => root
    root := root, add := add, def_ext := def_ext,
    filter_caption := filter_caption, recurse := recurse, notify := notify }

/-- The `paths : HashMap<PathBuf, FSPath>` field, as an association list whose
first match wins; `insert` prepends (overwrite semantics for lookups). -/
def PathsMap := List (Str × FSPath)

/-- `HashMap::get`. -/
def PathsMap.find (ps : PathsMap) (k : Str) : Option FSPath :=
  (List.find? (fun e => e.1 == k) ps).map (fun e => e.2)

/-- `HashMap::insert` (overwrites for lookup purposes). -/
def PathsMap.insert (ps : PathsMap) (k : Str) (v : FSPath) : PathsMap :=
  (k, v) :: ps

/-- The reserved alias `$fs_root$` (mod.rs line 19). -/
def FS_ROOT : Str := "$fs_root$".toList

/-- Errors surfaced (or aborts suffered) by `Filesystem::initialize`. -/
inductive InitError where
  /-- `FilesystemError::InvalidFsLtxSyntax` (mod.rs lines 236-240). -/
  | invalidFsLtxSyntax (file_name : Str) (line : Nat)
  /-- the `line.split_once('=').unwrap()` on mod.rs line 68 panics when the
  line holds no `=`. -/
  | unwrapPanic (line : Nat)
  /-- an error propagated out of `self.recurse(…)?` (mod.rs line 118). -/
  | recurseFailed
deriving DecidableEq

/-- One iteration of the line loop of `Filesystem::initialize`
(mod.rs lines 58-121).  `line_idx` is already 1-based (the source maps
`line_idx + 1` over the enumeration). -/
def initLine (recOracle : Str → Bool → Bool) (fsRoot fsPath : Str)
    (paths : PathsMap) (line_idx : Nat) (line : Str) :
    Except InitError PathsMap :=
  if List.isPrefixOf ";".toList line then .ok paths
  else
    match splitOnceChar '=' line with
    | none => .error (.unwrapPanic line_idx)
    | some (id0, values0) =>
      let id := trimStr id0
      match (splitOnChar '|' (trimStr values0)).map trimStr with
      | [] => .error (.invalidFsLtxSyntax fsPath line_idx)
      | [_] => .error (.invalidFsLtxSyntax fsPath line_idx)
      | [_, _] => .error (.invalidFsLtxSyntax fsPath line_idx)
      | recurse0 :: notify0 :: root0 :: restFields =>
        let recurse := is_bool_true recurse0
        let notify := is_bool_true notify0
        let root := root0
        let add := restFields.get? 0
        let def_ext := restFields.get? 1
        let filter_caption := restFields.get? 2
        let root_path := paths.find root
        let paths :=
          if root_path.isNone && root == FS_ROOT then
            paths.insert FS_ROOT (FSPath.new fsRoot none none none false false)
          else paths
        let root_path :=
          if root_path.isNone && root == FS_ROOT then paths.find root
          else root_path
        let rootResolved := (root_path.map (fun p => p.path)).getD root
        let p := FSPath.new rootResolved add def_ext filter_caption recurse notify
        if recOracle p.path p.recurse then .ok (paths.insert id p)
        else .error .recurseFailed

/-- The line loop of `Filesystem::initialize`, threading the 0-based
enumeration index. -/
def initLoop (recOracle : Str → Bool → Bool) (fsRoot fsPath : Str) :
    Nat → PathsMap → List Str → Except InitError PathsMap
  | _, paths, [] => .ok paths
  | idx, paths, line :: rest =>
    match initLine recOracle fsRoot fsPath paths (idx + 1) line with
    | .error e => .error e
    | .ok paths' => initLoop recOracle fsRoot fsPath (idx + 1) paths' rest

/-- `Filesystem::initialize` restricted to its configuration-parsing effect:
fold the line loop over the lines of the configuration file. -/
def initializeFs (recOracle : Str → Bool → Bool) (fsRoot fsPath : Str)
    (fs_ltx_lines : List Str) : Except InitError PathsMap :=
  initLoop recOracle fsRoot fsPath 0 [] fs_ltx_lines

/-! ## The LZH decoder (src/xray-oxide-core/src/lzhuf/decode.rs, mod.rs)

Constants from src/xray-oxide-core/src/lzhuf/mod.rs.  The decoder state's
arrays are modelled as functions `Nat → Nat`; Rust `u32`/`usize` values are
`Nat` with explicit `% 2^w` exactly where the Rust operation discards bits
(`<<=` on the bit reservoir, `& (N-1)`, `as u8`, `wrapping_sub`).  The
reader is the `input` byte list; `getb` returns 0 at end of input
(`unwrap_or_default`).  The unbounded Rust loops (the tree walk of
`decode_char`, the two scans of `update`, and `reconst`'s insertion scan)
are given fuel; running out of fuel (or `reconst`'s downward scan falling
off index 0, a `usize` underflow in Rust) yields `none`, and the decoder
invariant proofs show this never happens. -/

def N : Nat := 4096
def F : Nat := 60
def THRESHOLD : Nat := 2
def N_CHAR : Nat := 256 - THRESHOLD + F
def T : Nat := N_CHAR * 2 - 1
def R : Nat := T - 1
def MAX_FREQ : Nat := 0x4000

/-- `D_CODE` (decode.rs lines 5-22). -/
def dCodeTable : List Nat :=
  [0x00, 0x00, 0x00, 0x00, 0x00, 0x00, 0x00, 0x00, 0x00, 0x00, 0x00, 0x00, 0x00, 0x00, 0x00, 0x00,
   0x00, 0x00, 0x00, 0x00, 0x00, 0x00, 0x00, 0x00, 0x00, 0x00, 0x00, 0x00, 0x00, 0x00, 0x00, 0x00,
   0x01, 0x01, 0x01, 0x01, 0x01, 0x01, 0x01, 0x01, 0x01, 0x01, 0x01, 0x01, 0x01, 0x01, 0x01, 0x01,
   0x02, 0x02, 0x02, 0x02, 0x02, 0x02, 0x02, 0x02, 0x02, 0x02, 0x02, 0x02, 0x02, 0x02, 0x02, 0x02,
   0x03, 0x03, 0x03, 0x03, 0x03, 0x03, 0x03, 0x03, 0x03, 0x03, 0x03, 0x03, 0x03, 0x03, 0x03, 0x03,
   0x04, 0x04, 0x04, 0x04, 0x04, 0x04, 0x04, 0x04, 0x05, 0x05, 0x05, 0x05, 0x05, 0x05, 0x05, 0x05,
   0x06, 0x06, 0x06, 0x06, 0x06, 0x06, 0x06, 0x06, 0x07, 0x07, 0x07, 0x07, 0x07, 0x07, 0x07, 0x07,
   0x08, 0x08, 0x08, 0x08, 0x08, 0x08, 0x08, 0x08, 0x09, 0x09, 0x09, 0x09, 0x09, 0x09, 0x09, 0x09,
   0x0A, 0x0A, 0x0A, 0x0A, 0x0A, 0x0A, 0x0A, 0x0A, 0x0B, 0x0B, 0x0B, 0x0B, 0x0B, 0x0B, 0x0B, 0x0B,
   0x0C, 0x0C, 0x0C, 0x0C, 0x0D, 0x0D, 0x0D, 0x0D, 0x0E, 0x0E, 0x0E, 0x0E, 0x0F, 0x0F, 0x0F, 0x0F,
   0x10, 0x10, 0x10, 0x10, 0x11, 0x11, 0x11, 0x11, 0x12, 0x12, 0x12, 0x12, 0x13, 0x13, 0x13, 0x13,
   0x14, 0x14, 0x14, 0x14, 0x15, 0x15, 0x15, 0x15, 0x16, 0x16, 0x16, 0x16, 0x17, 0x17, 0x17, 0x17,
   0x18, 0x18, 0x19, 0x19, 0x1A, 0x1A, 0x1B, 0x1B, 0x1C, 0x1C, 0x1D, 0x1D, 0x1E, 0x1E, 0x1F, 0x1F,
   0x20, 0x20, 0x21, 0x21, 0x22, 0x22, 0x23, 0x23, 0x24, 0x24, 0x25, 0x25, 0x26, 0x26, 0x27, 0x27,
   0x28, 0x28, 0x29, 0x29, 0x2A, 0x2A, 0x2B, 0x2B, 0x2C, 0x2C, 0x2D, 0x2D, 0x2E, 0x2E, 0x2F, 0x2F,
   0x30, 0x31, 0x32, 0x33, 0x34, 0x35, 0x36, 0x37, 0x38, 0x39, 0x3A, 0x3B, 0x3C, 0x3D, 0x3E, 0x3F]

/-- `D_LEN` (decode.rs lines 23-40). -/
def dLenTable : List Nat :=
  [0x03, 0x03, 0x03, 0x03, 0x03, 0x03, 0x03, 0x03, 0x03, 0x03, 0x03, 0x03, 0x03, 0x03, 0x03, 0x03,
   0x03, 0x03, 0x03, 0x03, 0x03, 0x03, 0x03, 0x03, 0x03, 0x03, 0x03, 0x03, 0x03, 0x03, 0x03, 0x03,
   0x04, 0x04, 0x04, 0x04, 0x04, 0x04, 0x04, 0x04, 0x04, 0x04, 0x04, 0x04, 0x04, 0x04, 0x04, 0x04,
   0x04, 0x04, 0x04, 0x04, 0x04, 0x04, 0x04, 0x04, 0x04, 0x04, 0x04, 0x04, 0x04, 0x04, 0x04, 0x04,
   0x04, 0x04, 0x04, 0x04, 0x04, 0x04, 0x04, 0x04, 0x04, 0x04, 0x04, 0x04, 0x04, 0x04, 0x04, 0x04,
   0x05, 0x05, 0x05, 0x05, 0x05, 0x05, 0x05, 0x05, 0x05, 0x05, 0x05, 0x05, 0x05, 0x05, 0x05, 0x05,
   0x05, 0x05, 0x05, 0x05, 0x05, 0x05, 0x05, 0x05, 0x05, 0x05, 0x05, 0x05, 0x05, 0x05, 0x05, 0x05,
   0x05, 0x05, 0x05, 0x05, 0x05, 0x05, 0x05, 0x05, 0x05, 0x05, 0x05, 0x05, 0x05, 0x05, 0x05, 0x05,
   0x05, 0x05, 0x05, 0x05, 0x05, 0x05, 0x05, 0x05, 0x05, 0x05, 0x05, 0x05, 0x05, 0x05, 0x05, 0x05,
   0x06, 0x06, 0x06, 0x06, 0x06, 0x06, 0x06, 0x06, 0x06, 0x06, 0x06, 0x06, 0x06, 0x06, 0x06, 0x06,
   0x06, 0x06, 0x06, 0x06, 0x06, 0x06, 0x06, 0x06, 0x06, 0x06, 0x06, 0x06, 0x06, 0x06, 0x06, 0x06,
   0x06, 0x06, 0x06, 0x06, 0x06, 0x06, 0x06, 0x06, 0x06, 0x06, 0x06, 0x06, 0x06, 0x06, 0x06, 0x06,
   0x07, 0x07, 0x07, 0x07, 0x07, 0x07, 0x07, 0x07, 0x07, 0x07, 0x07, 0x07, 0x07, 0x07, 0x07, 0x07,
   0x07, 0x07, 0x07, 0x07, 0x07, 0x07, 0x07, 0x07, 0x07, 0x07, 0x07, 0x07, 0x07, 0x07, 0x07, 0x07,
   0x07, 0x07, 0x07, 0x07, 0x07, 0x07, 0x07, 0x07, 0x07, 0x07, 0x07, 0x07, 0x07, 0x07, 0x07, 0x07,
   0x08, 0x08, 0x08, 0x08, 0x08, 0x08, 0x08, 0x08, 0x08, 0x08, 0x08, 0x08, 0x08, 0x08, 0x08, 0x08]

def D_CODE (i : Nat) : Nat := dCodeTable.getD i 0

def D_LEN (i : Nat) : Nat := dLenTable.getD i 0

/-- Pointwise update of a function-modelled array. -/
def upd (a : Nat → Nat) (i v : Nat) : Nat → Nat := fun j => if j = i then v else a j

/-- The state of `Decoder<R>` (decode.rs lines 42-58): the unread input, the
output built by `putb`, the sliding window, the three adaptive-Huffman
arrays and the bit reservoir (`tim_size` is write-only in the source and
dropped). -/
structure DecSt where
  input : List Nat
  output : List Nat
  text_buf : Nat → Nat
  freq : Nat → Nat
  parent : Nat → Nat
  son : Nat → Nat
  get_buf : Nat
  get_len : Nat

/-- `Decoder::new` (decode.rs lines 61-74): zeroed arrays and reservoir. -/
def initialState (input : List Nat) : DecSt :=
  { input := input, output := [], text_buf := fun _ => 0, freq := fun _ => 0,
    parent := fun _ => 0, son := fun _ => 0, get_buf := 0, get_len := 0 }

/-- `Decoder::getb` (decode.rs lines 126-128): one byte, or 0 at end of
input. -/
def getb (st : DecSt) : Nat × DecSt :=
  match st.input with
  | [] => (0, st)
  | b :: rest => (b % 256, { st with input := rest })

/-- `Decoder::putb` (decode.rs lines 130-132): push `(c & 0xFF) as u8`. -/
def putb (st : DecSt) (c : Nat) : DecSt :=
  { st with output := st.output ++ [c % 256] }

/-- The refill loop shared by `get_bit` and `get_byte`
(decode.rs lines 187-191 and 201-205): while `get_len <= 8`, fetch a byte
and OR it into the reservoir.  For every state the Rust loop runs at most
twice (one pass adds 8 to `get_len`), so fuel 2 is exact. -/
def refill : Nat → DecSt → DecSt
  | 0, st => st
  | fuel + 1, st =>
    if st.get_len ≤ 8 then
      let (i, st') := getb st
      refill fuel { st' with
        get_buf := st'.get_buf ||| (i * 2 ^ (8 - st'.get_len)),
        get_len := st'.get_len + 8 }
    else st

/-- `Decoder::get_bit` (decode.rs lines 186-198): refill, return bit 15 of
the reservoir, shift left by one (dropping to 32 bits), drop one valid
bit. -/
def get_bit (st : DecSt) : Nat × DecSt :=
  let st := refill 2 st
  let i := st.get_buf
  ((i / 32768) % 2,
    { st with get_buf := (st.get_buf * 2) % 4294967296, get_len := st.get_len - 1 })

/-- `Decoder::get_byte` (decode.rs lines 200-212): refill, return bits 15..8,
shift left by eight, drop eight valid bits. -/
def get_byte (st : DecSt) : Nat × DecSt :=
  let st := refill 2 st
  let i := st.get_buf
  ((i / 256) % 256,
    { st with get_buf := (st.get_buf * 256) % 4294967296, get_len := st.get_len - 8 })

/-- First loop of `Decoder::start_huff` (decode.rs lines 135-139): leaves. -/
def shLeaves : Nat → Nat → DecSt → DecSt
  | 0, _, st => st
  | fuel + 1, i, st =>
    shLeaves fuel (i + 1)
      { st with freq := upd st.freq i 1,
                son := upd st.son i (i + T),
                parent := upd st.parent (i + T) i }

/-- Second loop of `Decoder::start_huff` (decode.rs lines 141-150): build the
internal nodes bottom-up while `j ≤ R`. -/
def shInternal : Nat → Nat → Nat → DecSt → DecSt
  | 0, _, _, st => st
  | fuel + 1, i, j, st =>
    if j ≤ R then
      shInternal fuel (i + 2) (j + 1)
        { st with freq := upd st.freq j (st.freq i + st.freq (i + 1)),
                  son := upd st.son j i,
                  parent := upd (upd st.parent i j) (i + 1) j }
    else st

/-- `Decoder::start_huff` (decode.rs lines 134-153). -/
def start_huff (st : DecSt) : DecSt :=
  let st := shLeaves N_CHAR 0 st
  let st := shInternal T 0 N_CHAR st
  { st with freq := upd st.freq T 0xFFFF, parent := upd st.parent R 0 }

/-- Phase 1 of `Decoder::reconst` (decode.rs lines 215-222): compact the
leaves (positions whose `son` is ≥ T) into the prefix, halving frequencies
with round-up.  Returns the write cursor `j` together with the state. -/
def reconstLeaves : Nat → Nat → Nat → DecSt → Nat × DecSt
  | 0, _, j, st => (j, st)
  | fuel + 1, i, j, st =>
    if st.son i ≥ T then
      reconstLeaves fuel (i + 1) (j + 1)
        { st with freq := upd st.freq j ((st.freq i + 1) / 2),
                  son := upd st.son j (st.son i) }
    else reconstLeaves fuel (i + 1) j st

/-- `copy_within(k..j, k+1)`: positions `k+1 … j` take the old values of
positions `k … j-1`; everything else is unchanged. -/
def shiftRightOne (a : Nat → Nat) (k j : Nat) : Nat → Nat :=
  fun x => if k + 1 ≤ x ∧ x ≤ j then a (x - 1) else a x

/-- The downward scan `while f < freq[k] { k -= 1 }` of `reconst`
(decode.rs lines 230-232), structurally recursive on `k`; `none` models the
`usize` underflow `0 - 1` (unreachable under the invariant). -/
def findK (st : DecSt) (f : Nat) : Nat → Option Nat
  | 0 => if f < st.freq 0 then none else some 0
  | k + 1 => if f < st.freq (k + 1) then findK st f k else some (k + 1)

/-- Phase 2 of `Decoder::reconst` (decode.rs lines 224-243): for each
internal node `j` pair the next two entries `i`, `i+1`, and insert the sum
into the sorted prefix, shifting `freq`/`son` right by one. -/
def reconstRebuild : Nat → Nat → Nat → DecSt → Option DecSt
  | 0, _, _, st => some st
  | fuel + 1, i, j, st =>
    let f := st.freq i + st.freq (i + 1)
    let st := { st with freq := upd st.freq j f }
    match findK st f (j - 1) with
    | none => none
    | some k0 =>
      let k := k0 + 1
      reconstRebuild fuel (i + 2) (j + 1)
        { st with freq := upd (shiftRightOne st.freq k j) k f,
                  son := upd (shiftRightOne st.son k j) k i }

/-- Phase 3 of `Decoder::reconst` (decode.rs lines 245-252): rebuild the
`parent` array from `son`. -/
def reconstParents : Nat → Nat → DecSt → DecSt
  | 0, _, st => st
  | fuel + 1, i, st =>
    let k := st.son i
    let p := upd st.parent k i
    let p := if k < T then upd p (k + 1) i else p
    reconstParents fuel (i + 1) { st with parent := p }

/-- `Decoder::reconst` (decode.rs lines 214-253). -/
def reconst (st : DecSt) : Option DecSt :=
  let (_, st) := reconstLeaves T 0 0 st
  match reconstRebuild (T - N_CHAR) 0 N_CHAR st with
  | none => none
  | some st => some (reconstParents T 0 st)

/-- The upward scan of `update` (decode.rs lines 268-271): starting from
`l`, advance while `k > freq[l]`, then step back by one; fuelled (the
`freq[T] = 0xFFFF` sentinel stops it under the invariant).  Returns the
final `l`. -/
def findSwapTarget : Nat → DecSt → Nat → Nat → Option Nat
  | 0, _, _, _ => none
  | fuel + 1, st, k, l =>
    if k > st.freq l then findSwapTarget fuel st k (l + 1)
    else some (l - 1)

/-- The body of one iteration of `Decoder::update`'s loop after the
increment (decode.rs lines 266-293): when the increased frequency `k`
exceeds the next node's, find the swap target `l`, swap the two nodes'
frequencies and sons and fix the parent pointers of both moved subtrees;
returns the state and the node to ascend from. -/
def updateSwap (st : DecSt) (c : Nat) : Option (DecSt × Nat) :=
  let k := st.freq c
  if k > st.freq (c + 1) then
    match findSwapTarget (T + 2) st k (c + 2) with
    | none => none
    | some l =>
      let st := { st with freq := upd (upd st.freq c (st.freq l)) l k }
      let i := st.son c
      let p1 := upd st.parent i l
      let p1 := if i < T then upd p1 (i + 1) l else p1
      let st := { st with parent := p1 }
      let j := st.son l
      let st := { st with son := upd st.son l i }
      let p2 := upd st.parent j c
      let p2 := if j < T then upd p2 (j + 1) c else p2
      let st := { st with parent := p2 }
      let st := { st with son := upd st.son c j }
      some (st, l)
  else some (st, c)

/-- The main loop of `Decoder::update` (decode.rs lines 262-300): increment
`freq[c]`, restore order via `updateSwap`, ascend to the parent; stop at the
root sentinel `parent[R] = 0`. -/
def updateLoop : Nat → DecSt → Nat → Option DecSt
  | 0, _, _ => none
  | fuel + 1, st, c =>
    let st := { st with freq := upd st.freq c (st.freq c + 1) }
    match updateSwap st c with
    | none => none
    | some (st, c) =>
      let c := st.parent c
      if c = 0 then some st else updateLoop fuel st c

/-- `Decoder::update` (decode.rs lines 255-301): rescale via `reconst` when
the root frequency hits `MAX_FREQ`, translate the symbol to its tree
position through `parent[c + T]`, then run the loop. -/
def update (st : DecSt) (c : Nat) : Option DecSt :=
  match (if st.freq R = MAX_FREQ then reconst st else some st) with
  | none => none
  | some st =>
    let c := st.parent (c + T)
    updateLoop (T + 1) st c

/-- The tree walk of `Decoder::decode_char` (decode.rs lines 157-162):
while `c < T`, add one input bit and follow `son`. -/
def decodeCharWalk : Nat → DecSt → Nat → Option (Nat × DecSt)
  | 0, _, _ => none
  | fuel + 1, st, c =>
    if c < T then
      let (b, st') := get_bit st
      decodeCharWalk fuel st' (st'.son (c + b))
    else some (c, st)

/-- `Decoder::decode_char` (decode.rs lines 155-169). -/
def decode_char (st : DecSt) : Option (Nat × DecSt) :=
  match decodeCharWalk (T + 1) st (st.son R) with
  | none => none
  | some (c0, st) =>
    let c := c0 - T
    match update st c with
    | none => none
    | some st => some (c, st)

/-- The trailing-bit loop of `decode_position`: `i = (i << 1) + get_bit()`
run `n` times. -/
def dpBits : Nat → Nat → DecSt → Nat × DecSt
  | 0, i, st => (i, st)
  | n + 1, i, st =>
    let (b, st) := get_bit st
    dpBits n (i * 2 + b) st

/-- `Decoder::decode_position` (decode.rs lines 171-184): one byte indexes
`D_CODE`/`D_LEN`; read `D_LEN − 2` further bits into the low end; result is
`(D_CODE[i] << 6) | (i & 0x3F)`. -/
def decode_position (st : DecSt) : Nat × DecSt :=
  let (i, st) := get_byte st
  let c := (D_CODE i) * 64
  let (i, st) := dpBits (D_LEN i - 2) i st
  (c ||| (i % 64), st)

/-- The back-reference copy `for k in 0..j` of `Decoder::decode`
(decode.rs lines 104-110): read from the window at `(i+k) & (N-1)`, emit,
store at `r`, advance `r` and the counter. -/
def copyRun : Nat → Nat → Nat → Nat → Nat → DecSt → DecSt × Nat × Nat
  | 0, _, _, r, count, st => (st, r, count)
  | j + 1, k, i, r, count, st =>
    let c := st.text_buf ((i + k) % N)
    let st := putb st c
    let st := { st with text_buf := upd st.text_buf r (c % 256) }
    copyRun j (k + 1) i ((r + 1) % N) (count + 1) st

/-- `r.wrapping_sub(pos + 1)` on 64-bit `usize`. -/
def wrapSub64 (a b : Nat) : Nat :=
  ((a + 18446744073709551616) - b) % 18446744073709551616

/-- The main loop of `Decoder::decode` (decode.rs lines 93-112): while fewer
than `text_size` bytes have been emitted, decode one symbol; a literal is
emitted and stored in the window; a back-reference copies `c - 253` bytes
from the window.  Each iteration emits at least one byte, so fuel
`text_size` is exact; `none` only propagates fuel exhaustion from
`decode_char`. -/
def decodeLoop : Nat → Nat → Nat → Nat → DecSt → Option (DecSt × Nat × Nat)
  | 0, ts, r, count, st => if count < ts then none else some (st, r, count)
  | fuel + 1, ts, r, count, st =>
    if count < ts then
      match decode_char st with
      | none => none
      | some (c, st) =>
        if c < 256 then
          let st := putb st c
          let st := { st with text_buf := upd st.text_buf r (c % 256) }
          decodeLoop fuel ts ((r + 1) % N) (count + 1) st
        else
          let (pos, st) := decode_position st
          let i := wrapSub64 r (pos + 1) % N
          let j := c - 255 + THRESHOLD
          let (st, r', count') := copyRun j 0 i r count st
          decodeLoop fuel ts r' count' st
    else some (st, r, count)

/-- `reader.read_u32::<LittleEndian>()` over the input byte list. -/
def readU32LEList (s : List Nat) : Option (Nat × List Nat) :=
  match s with
  | b0 :: b1 :: b2 :: b3 :: rest =>
      some (b0 % 256 + (b1 % 256) * 256 + (b2 % 256) * 65536
        + (b3 % 256) * 16777216, rest)
  | _ => none

inductive LzhError where
  /-- the `read_u32` of the size prefix failed (decode.rs line 77). -/
  | io
  /-- model artifact: a fuelled loop ran out of fuel or `reconst`'s scan
  underflowed; unreachable from `initialState` by the invariant proofs. -/
  | stuck
deriving DecidableEq

/-- The state of `decode` just before its main loop (decode.rs lines 83-90):
prefix consumed, `start_huff` run, window primed with `0x20` in positions
`< N - F`. -/
def loopStartState (input rest : List Nat) : DecSt :=
  let st := start_huff { initialState input with input := rest }
  { st with text_buf := fun i => if i < N - F then 0x20 else st.text_buf i }

/-- `Decoder::decode` (decode.rs lines 76-117), returning the whole final
state (the source returns `self.output`): read the little-endian `text_size`;
0 means an empty output with nothing further read; otherwise initialise the
tree and the window and run the main loop from `r = N - F`. -/
def decodeFull (input : List Nat) : Except LzhError DecSt :=
  let st := initialState input
  match readU32LEList st.input with
  | none => .error .io
  | some (text_size, rest) =>
    let st := { st with input := rest }
    if text_size = 0 then .ok st
    else
      match decodeLoop text_size text_size (N - F) 0 (loopStartState input rest) with
      | none => .error .stuck
      | some (st, _, _) => .ok st

/-- `lzhuf::decompress` (lzhuf/mod.rs lines 31-33): just the output bytes. -/
def decompress (input : List Nat) : Except LzhError (List Nat) :=
  (decodeFull input).map (fun st => st.output)

/-- The range invariant on the `son` array: every entry is below
`T + N_CHAR`, so a leaf entry (one that is `≥ T`) encodes a symbol in
`[0, N_CHAR)`. -/
def SonBound (st : DecSt) : Prop := ∀ x, st.son x < T + N_CHAR

/-! ## Chunked archives (src/xray-oxide-core/src/filesystem/archive.rs)

File contents, path canonicalisation, the external `ini` parser and the
legacy code-page decoder are oracles.  The reader is consumed functionally:
`seek_relative(size)` is `List.drop`, and a read past the end of data is the
`UnexpectedEof` error `read_u32`/`read_exact` produce. -/

/-- `reader.read_u16::<LittleEndian>()`. -/
def readU16LEList (s : List Nat) : Option (Nat × List Nat) :=
  match s with
  | b0 :: b1 :: rest => some (b0 % 256 + (b1 % 256) * 256, rest)
  | _ => none

/-- `ARCHIVE_COMPRESS_FLAG = 1 << 31` (archive.rs line 111). -/
def ARCHIVE_COMPRESS_FLAG : Nat := 2147483648

/-- `ARCHIVE_HEADER_CHUNK_ID` (archive.rs line 112). -/
def ARCHIVE_HEADER_CHUNK_ID : Nat := 666

inductive ChunkError where
  /-- `read_u32`/`read_exact` reached end of data while scanning. -/
  | ioEof
  /-- an error of the LZH decoder on a compressed chunk. -/
  | lzh (e : LzhError)
deriving DecidableEq

/-- The loop of `open_chunk` (archive.rs lines 282-304): read `type` and
`size`; on a masked-type match read the payload (decompressing when bit 31
of `type` is set, i.e. `2^31 ≤ ty`); otherwise seek past the payload and
continue.  `ty & !ARCHIVE_COMPRESS_FLAG` is `ty % 2^31` for the `u32` `ty`.
Fuelled: every iteration consumes at least 8 bytes, so the wrapper's
`s.length + 1` always suffices, and the fuel-0 result coincides with the
genuine end-of-data error. -/
def openChunkAux : Nat → List Nat → Nat → Except ChunkError (Option (List Nat))
  | 0, _, _ => .error .ioEof
  | fuel + 1, s, id =>
    match readU32LEList s with
    | none => .error .ioEof
    | some (ty, s1) =>
      match readU32LEList s1 with
      | none => .error .ioEof
      | some (size, s2) =>
        if ty % 2147483648 = id then
          if size ≤ s2.length then
            let source_data := s2.take size
            if 2147483648 ≤ ty then
              match decompress source_data with
              | .error e => .error (.lzh e)
              | .ok out => .ok (some out)
            else .ok (some source_data)
          else .error .ioEof
        else openChunkAux fuel (s2.drop size) id

/-- `open_chunk` (archive.rs lines 282-304).  Its `Option` result mirrors
the source signature `Result<Option<Vec<u8>>>`; note no path of the loop
produces `Ok(None)`. -/
def openChunk (s : List Nat) (id : Nat) : Except ChunkError (Option (List Nat)) :=
  openChunkAux (s.length + 1) s id

/-- The parsed-INI model for the `ini` crate's `Ini`. -/
structure IniM where
  sections : List (Str × List (Str × Str))
deriving DecidableEq

/-- `Ini::new()`. -/
def IniM.empty : IniM := ⟨[]⟩

/-- `Ini::get_from(Some(section), key)`. -/
def IniM.getFrom (ini : IniM) (sec key : Str) : Option Str :=
  match List.find? (fun e => e.1 == sec) ini.sections with
  | none => none
  | some e => (List.find? (fun kv => kv.1 == key) e.2).map (fun kv => kv.2)

/-- `Ini::is_empty()`. -/
def IniM.isEmpty (ini : IniM) : Bool := ini.sections.isEmpty

/-- `Archive` (archive.rs lines 16-21). -/
structure ArchiveM where
  path : Str
  index : Nat
  header : IniM
  size : Nat
deriving DecidableEq

/-- The `Filesystem` aggregate (mod.rs lines 21-26). -/
structure FilesystemM where
  fs_root : Str
  paths : PathsMap
  files : FilesMap
  archives : List ArchiveM

inductive ArchError where
  /-- an I/O failure (`File::open`, `canonicalize`, short read, bad map). -/
  | io
  /-- an error from `open_chunk`. -/
  | chunk (e : ChunkError)
  /-- `String::from_utf8` or `Ini::load_from_str_noescape` failed. -/
  | headerParse
  /-- a panic: `unwrap()` on a missing value, `todo!()` for the `gamedata`
  entry point, `panic!("unsupported")` for an empty header, or an
  out-of-bounds index. -/
  | panicked
  /-- `Encoding::ANSI.to_string` failed. -/
  | encoding
deriving DecidableEq

/-- The per-entry parse inside `load_archive` (archive.rs lines 198-213):
`u32` real size, `u32` compressed size, `u32` CRC (dropped), the name in the
legacy code page (`buffer_size - 16` bytes), then the `u32` offset.  A
sub-record shorter than 16 bytes underflows `buffer_size - 4 *
size_of::<u32>()` in Rust (a panic in debug, a failed read in release);
either way the load aborts. -/
def parseEntry (ansi : List Nat → Option Str) (buffer : List Nat) :
    Except ArchError (Nat × Nat × Str × Nat) :=
  let buffer_size := buffer.length
  match readU32LEList buffer with
  | none => .error .io
  | some (size_real, b1) =>
    match readU32LEList b1 with
    | none => .error .io
    | some (size_compressed, b2) =>
      match readU32LEList b2 with
      | none => .error .io
      | some (_, b3) =>
        if buffer_size < 16 then .error .panicked
        else
          let name_length := buffer_size - 16
          if name_length ≤ b3.length then
            match ansi (b3.take name_length) with
            | none => .error .encoding
            | some name =>
              match readU32LEList (b3.drop name_length) with
              | none => .error .io
              | some (ptr, _) => .ok (size_real, size_compressed, name, ptr)
          else .error .io

/-- `ChunkBuffersIter` (archive.rs lines 257-280): sub-records `u16 len`
then `len` bytes; stops at the first failed read.  Fuelled like
`openChunkAux` (each step consumes at least 2 bytes). -/
def chunkBuffersAux : Nat → List Nat → List (List Nat)
  | 0, _ => []
  | fuel + 1, s =>
    match readU16LEList s with
    | none => []
    | some (size, s1) =>
      if size ≤ s1.length then s1.take size :: chunkBuffersAux fuel (s1.drop size)
      else []

def chunkBuffersIter (s : List Nat) : List (List Nat) :=
  chunkBuffersAux (s.length + 1) s

/-- The registration fold of `load_archive` (archive.rs lines 196-225):
each parsed entry is registered under `read_path` extended with its name. -/
def processEntries (ansi : List Nat → Option Str) (archive_index : Nat)
    (read_path : FsPathKey) :
    List (List Nat) → FilesMap → Except ArchError FilesMap
  | [], files => .ok files
  | b :: rest, files =>
    match parseEntry ansi b with
    | .error e => .error e
    | .ok (size_real, size_compressed, name, ptr) =>
        processEntries ansi archive_index read_path rest
          (register files (read_path ++ [name]) (some archive_index)
            size_real size_compressed ptr)

/-- `Filesystem::load_archive` (archive.rs lines 156-228). -/
def loadArchive (readFileOracle : Str → Option (List Nat))
    (ansi : List Nat → Option Str) (fs : FilesystemM) (index : Nat) :
    Except ArchError FilesystemM :=
  match fs.archives.get? index with
  | none => .error .panicked
  | some archive =>
    if archive.header.isEmpty then .error .panicked
    else
      match archive.header.getFrom "header".toList "entry_point".toList with
      | none => .error .panicked
      | some entry_point =>
        if entry_point == "gamedata".toList then .error .panicked
        else
          match splitOnceChar '\\' entry_point with
          | none => .error .panicked
          | some (aliasName, add) =>
            let read_path : FsPathKey :=
              (match PathsMap.find fs.paths aliasName with
               | some p => [p.path]
               | none => []) ++ [add]
            match readFileOracle archive.path with
            | none => .error .io
            | some bytes =>
              match openChunk bytes 1 with
              | .error e => .error (.chunk e)
              | .ok none => .error .panicked
              | .ok (some chunk) =>
                match processEntries ansi archive.index read_path
                    (chunkBuffersIter chunk) fs.files with
                | .error e => .error e
                | .ok files => .ok { fs with files := files }

/-- `Filesystem::process_archive` (archive.rs lines 115-154): canonicalise;
return silently when an archive with this canonical path exists; otherwise
push a fresh `Archive` (index = current length, size from the file), read
chunk 666, parse it as INI and store it, read `auto_load` (missing key →
`false`, missing header → `true`), and enumerate when loading. -/
def processArchive (canon : Str → Option Str)
    (readFileOracle : Str → Option (List Nat))
    (parseIni : List Nat → Option IniM) (ansi : List Nat → Option Str)
    (fs : FilesystemM) (path : Str) : Except ArchError FilesystemM :=
  match canon path with
  | none => .error .io
  | some cpath =>
    if fs.archives.any (fun a => a.path == cpath) then .ok fs
    else
      let index := fs.archives.length
      match readFileOracle cpath with
      | none => .error .io
      | some bytes =>
        let fs := { fs with
          archives := fs.archives ++ [⟨cpath, index, IniM.empty, bytes.length⟩] }
        match openChunk bytes ARCHIVE_HEADER_CHUNK_ID with
        | .error e => .error (.chunk e)
        | .ok (some hbytes) =>
          match parseIni hbytes with
          | none => .error .headerParse
          | some ini =>
            let fs := { fs with
              archives := fs.archives.set index ⟨cpath, index, ini, bytes.length⟩ }
            let load := ((ini.getFrom "header".toList "auto_load".toList).map
              is_bool_true).getD false
            if load then loadArchive readFileOracle ansi fs index else .ok fs
        | .ok none => loadArchive readFileOracle ansi fs index

/-- `Filesystem::file_from_archive` (archive.rs lines 230-244): map the
archive at `[ptr, ptr + size_compressed)`; copy when the sizes agree, else
LZO-decompress into a `size_real` buffer (the `lzo` oracle returns the final
contents of that buffer).  A mapping reaching past the end of the file has
no defined contents (`mmap` + `SIGBUS`); it is modelled as an I/O error. -/
def file_from_archive (readFileOracle : Str → Option (List Nat))
    (lzo : List Nat → Nat → Except Unit (List Nat))
    (fs : FilesystemM) (archive : Nat) (file : VirtualFile) :
    Except ArchError (List Nat) :=
  match fs.archives.get? archive with
  | none => .error .panicked
  | some arch =>
    match readFileOracle arch.path with
    | none => .error .io
    | some bytes =>
      if file.ptr + file.size_compressed ≤ bytes.length then
        let map := (bytes.drop file.ptr).take file.size_compressed
        if file.size_compressed == file.size_real then .ok map
        else
          match lzo map file.size_real with
          | .error _ => .error .io
          | .ok buffer => .ok buffer
      else .error .io

/-- A chunk record `{ u32 type; u32 size; u8 payload[size] }` (for stating
theorems about archive files as chunk sequences). -/
structure ChunkRec where
  ty : Nat
  payload : List Nat

/-- Little-endian `u32` serialisation. -/
def u32le (n : Nat) : List Nat :=
  [n % 256, n / 256 % 256, n / 65536 % 256, n / 16777216 % 256]

/-- Serialise one chunk record. -/
def serializeChunk (c : ChunkRec) : List Nat :=
  u32le c.ty ++ u32le c.payload.length ++ c.payload

/-- Serialise a chunk sequence. -/
def serializeChunks (cs : List ChunkRec) : List Nat :=
  (cs.map serializeChunk).join

/-! ## Theorems about registration (claims C1, C3) -/

theorem ancestors_tail_eq (p : FsPathKey) :
    (ancestors p).tail = (List.range p.length).map (fun k => p.take (p.length - (k + 1))) := by
  simp only [ancestors, List.range_succ_eq_map, List.map_cons, List.tail_cons, List.map_map]
  rfl

theorem ancestors_tail_length {p q : FsPathKey} (h : q ∈ (ancestors p).tail) :
    q.length < p.length := by
  rw [ancestors_tail_eq] at h
  obtain ⟨k, hk, rfl⟩ := List.mem_map.mp h
  rw [List.mem_range] at hk
  simp only [List.length_take]
  omega

theorem registerAncestors_ne (m : FilesMap) (aid : Option Nat)
    (l : List FsPathKey) (q : FsPathKey) (hq : q ∉ l) :
    registerAncestors m aid l q = m q := by
  induction l generalizing m aid with
  | nil => rfl
  | cons a rest ih =>
      simp only [List.mem_cons, not_or] at hq
      obtain ⟨hqa, hqr⟩ := hq
      by_cases hold : (m a).isSome
      · simp [registerAncestors, hold, FilesMap.insert, hqa]
      · simp only [registerAncestors, hold, Bool.false_eq_true, if_false]
        rw [ih _ _ hqr]
        simp [FilesMap.insert, hqa]

/-- Claim C1 is false on the code: a second `register` under the same path
replaces the earlier entry (its sizes and offset change). -/
theorem c1_counterexample :
    (register (register FilesMap.empty [['a']] none 7 7 0) [['a']] none 9 9 1) [['a']]
        = some ⟨[['a']], none, 9, 9, 1⟩ ∧
      (register FilesMap.empty [['a']] none 7 7 0) [['a']]
        = some ⟨[['a']], none, 7, 7, 0⟩ := by
  constructor <;> rfl

/-- Claim C1 amended: registration is last-write-wins at the path key — after
any `register` call the entry at `path` is exactly the newly built descriptor,
whatever was there before. -/
theorem register_last_write_wins (m : FilesMap) (path : FsPathKey)
    (a : Option Nat) (sr sc pt : Nat) :
    (register m path a sr sc pt) path = some ⟨path, a, sr, sc, pt⟩ := by
  unfold register
  rw [registerAncestors_ne]
  · simp [FilesMap.insert]
  · intro hmem
    exact absurd (ancestors_tail_length hmem) (lt_irrefl _)

theorem registerAncestors_stop (m : FilesMap) (aid : Option Nat)
    (l : List FsPathKey) (hpw : l.Pairwise (· ≠ ·)) (k : Nat) (hk : k < l.length)
    (hfresh : ∀ i (h : i < k), m (l.get ⟨i, h.trans hk⟩) = none)
    (hexist : (m (l.get ⟨k, hk⟩)).isSome) :
    (∀ i (h : i ≤ k),
        registerAncestors m aid l (l.get ⟨i, lt_of_le_of_lt h hk⟩)
          = some ⟨l.get ⟨i, lt_of_le_of_lt h hk⟩, if i = 0 then aid else none, 0, 0, 0⟩)
      ∧ ∀ q, q ∉ l.take (k + 1) → registerAncestors m aid l q = m q := by
  induction l generalizing m aid k with
  | nil => exact absurd hk (Nat.not_lt_zero k)
  | cons a rest ih =>
    rw [List.pairwise_cons] at hpw
    obtain ⟨hane, hpw'⟩ := hpw
    have hanotin : a ∉ rest := fun hmem => (hane a hmem) rfl
    cases k with
    | zero =>
      have hstep : registerAncestors m aid (a :: rest)
          = m.insert a ⟨a, aid, 0, 0, 0⟩ := by
        have hexist0 : (m a).isSome := hexist
        simp only [registerAncestors]
        rw [if_pos hexist0]
      constructor
      · intro i h
        interval_cases i
        simp [hstep, FilesMap.insert]
      · intro q hq
        simp only [List.take_succ_cons, List.take_zero, List.mem_singleton] at hq
        simp [hstep, FilesMap.insert, hq]
    | succ k' =>
      have ha0 : m a = none := hfresh 0 (Nat.succ_pos k')
      have hstep : registerAncestors m aid (a :: rest)
          = registerAncestors (m.insert a ⟨a, aid, 0, 0, 0⟩) none rest := by
        simp only [registerAncestors, ha0]
        rfl
      have hagree : ∀ q, q ∈ rest → (m.insert a ⟨a, aid, 0, 0, 0⟩) q = m q := by
        intro q hq
        have : q ≠ a := fun h => hanotin (h ▸ hq)
        simp [FilesMap.insert, this]
      have hk' : k' < rest.length := by
        simpa [Nat.succ_lt_succ_iff] using hk
      have hfresh' : ∀ i (h : i < k'),
          (m.insert a ⟨a, aid, 0, 0, 0⟩) (rest.get ⟨i, h.trans hk'⟩) = none := by
        intro i h
        rw [hagree _ (List.get_mem _ _ _)]
        exact hfresh (i + 1) (Nat.succ_lt_succ h)
      have hexist' : ((m.insert a ⟨a, aid, 0, 0, 0⟩) (rest.get ⟨k', hk'⟩)).isSome := by
        rw [hagree _ (List.get_mem _ _ _)]
        exact hexist
      obtain ⟨P1, P2⟩ := ih (m.insert a ⟨a, aid, 0, 0, 0⟩) none hpw' k' hk' hfresh' hexist'
      constructor
      · intro i h
        cases i with
        | zero =>
          have hnot : a ∉ rest.take (k' + 1) := fun hmem => hanotin (List.mem_of_mem_take hmem)
          rw [hstep]
          show registerAncestors _ none rest a = _
          rw [P2 a hnot]
          simp [FilesMap.insert]
        | succ j =>
          have hj : j ≤ k' := Nat.le_of_succ_le_succ h
          rw [hstep]
          show registerAncestors _ none rest (rest.get ⟨j, _⟩) = _
          rw [P1 j hj]
          simp
      · intro q hq
        simp only [List.take_succ_cons, List.mem_cons, not_or] at hq
        rw [hstep, P2 q hq.2]
        simp [FilesMap.insert, hq.1]

theorem ancestors_tail_pairwise (p : FsPathKey) :
    ((ancestors p).tail).Pairwise (· ≠ ·) := by
  rw [ancestors_tail_eq]
  rw [List.pairwise_iff_get]
  intro i j hij
  simp only [List.get_map, List.get_range]
  intro heq
  have hi : i.val < p.length := by have := i.isLt; simpa using this
  have hj : j.val < p.length := by have := j.isLt; simpa using this
  have := congrArg List.length heq
  simp only [List.length_take] at this
  omega

/-- Claim C3 is false on the code in its "never clobbered" part: registering
`a/b` after `a` was registered as a plain file (sizes 7) replaces the entry at
`a` with a fresh zero-sized descriptor before the climb stops. -/
theorem c3_counterexample :
    (register FilesMap.empty [['a']] none 7 7 0) [['a']]
        = some ⟨[['a']], none, 7, 7, 0⟩ ∧
      (register (register FilesMap.empty [['a']] none 7 7 0) [['a'], ['b']] none 5 5 0) [['a']]
        = some ⟨[['a']], none, 0, 0, 0⟩ := by
  constructor <;> rfl

/-- Claim C3 amended: during registration the proper ancestors of `path` are
climbed in order; ancestors strictly below the first pre-existing entry get
fresh descriptors, the first ancestor that already had an entry has that entry
REPLACED by a fresh descriptor (zero sizes, the climb's current archive id)
and the climb stops there; only the immediate parent (index 0) carries the
original's archive id, higher ones carry none; everything above the stop point
(and any unrelated key) is untouched. -/
theorem c3_register_ancestor_climb (m : FilesMap) (path : FsPathKey)
    (arch : Option Nat) (sr sc pt : Nat) (k : Nat)
    (hk : k < (ancestors path).tail.length)
    (hfresh : ∀ i (h : i < k), m ((ancestors path).tail.get ⟨i, h.trans hk⟩) = none)
    (hexist : (m ((ancestors path).tail.get ⟨k, hk⟩)).isSome) :
    (∀ i (h : i ≤ k),
        (register m path arch sr sc pt) ((ancestors path).tail.get ⟨i, lt_of_le_of_lt h hk⟩)
          = some ⟨(ancestors path).tail.get ⟨i, lt_of_le_of_lt h hk⟩,
              if i = 0 then arch else none, 0, 0, 0⟩)
      ∧ ∀ q, q ∉ path :: (ancestors path).tail.take (k + 1) →
          (register m path arch sr sc pt) q = m q := by
  have hne : ∀ q ∈ (ancestors path).tail, q ≠ path := by
    intro q hq heq
    exact absurd (ancestors_tail_length hq) (heq ▸ lt_irrefl _)
  have hagree : ∀ q ∈ (ancestors path).tail,
      (m.insert path ⟨path, arch, sr, sc, pt⟩) q = m q := by
    intro q hq
    simp [FilesMap.insert, hne q hq]
  have hfresh1 : ∀ i (h : i < k),
      (m.insert path ⟨path, arch, sr, sc, pt⟩)
        ((ancestors path).tail.get ⟨i, h.trans hk⟩) = none := by
    intro i h
    rw [hagree _ (List.get_mem _ _ _)]
    exact hfresh i h
  have hexist1 : ((m.insert path ⟨path, arch, sr, sc, pt⟩)
      ((ancestors path).tail.get ⟨k, hk⟩)).isSome := by
    rw [hagree _ (List.get_mem _ _ _)]
    exact hexist
  obtain ⟨P1, P2⟩ := registerAncestors_stop (m.insert path ⟨path, arch, sr, sc, pt⟩)
    arch ((ancestors path).tail) (ancestors_tail_pairwise path) k hk hfresh1 hexist1
  refine ⟨fun i h => P1 i h, fun q hq => ?_⟩
  simp only [List.mem_cons, not_or] at hq
  show registerAncestors _ arch _ q = m q
  rw [P2 q hq.2]
  simp [FilesMap.insert, hq.1]

/-- Witness for `c3_register_ancestor_climb` at a concrete input: after
registering the plain file `a` (sizes 7), registering `a/b` stops its climb at
`a`, which ends up replaced by the zero-sized descriptor. -/
theorem c3_register_ancestor_climb_witness :
    (((register FilesMap.empty [['a']] none 7 7 0)
        ((ancestors [['a'], ['b']]).tail.get ⟨0, by decide⟩)).isSome
      ∧ ∀ q, q ∉ [['a'], ['b']] :: (ancestors [['a'], ['b']]).tail.take 1 →
          (register (register FilesMap.empty [['a']] none 7 7 0) [['a'], ['b']] (some 3) 5 5 0) q
            = (register FilesMap.empty [['a']] none 7 7 0) q) := by
  refine ⟨by rfl, ?_⟩
  exact (c3_register_ancestor_climb (register FilesMap.empty [['a']] none 7 7 0)
    [['a'], ['b']] (some 3) 5 5 0 0 (by decide)
    (fun i h => absurd h (Nat.not_lt_zero i)) (by rfl)).2

/-! ## Theorems about configuration parsing (claim C4) -/

theorem initLoop_append (o : Str → Bool → Bool) (fsRoot fsPath : Str)
    (idx : Nat) (paths : PathsMap) (pre rest : List Str) :
    initLoop o fsRoot fsPath idx paths (pre ++ rest)
      = match initLoop o fsRoot fsPath idx paths pre with
        | .ok p' => initLoop o fsRoot fsPath (idx + pre.length) p' rest
        | .error e => .error e := by
  induction pre generalizing idx paths with
  | nil => simp [initLoop]
  | cons l ls ih =>
      simp only [List.cons_append, initLoop]
      cases initLine o fsRoot fsPath paths (idx + 1) l with
      | error e => rfl
      | ok paths' =>
          dsimp only
          erw [ih]
          have harith : idx + (l :: ls).length = idx + 1 + ls.length := by
            simp only [List.length_cons]
            omega
          rw [harith]

/-- Claim C4 is false on the code as stated: a non-comment line without `=`
(here the empty line) has fewer than the three required fields, yet
`initialize` panics at `split_once('=').unwrap()` instead of returning the
`ConfigSyntax` error. -/
theorem c4_counterexample :
    initializeFs (fun _ _ => true) "/root".toList "fs.ltx".toList [[]]
      = .error (.unwrapPanic 1) := by rfl

/-- Claim C4 amended: for every non-comment configuration line that does
contain `=` but carries fewer than the three required fields after it, and
that is reached (all earlier lines processed without error), `initialize`
returns the `ConfigSyntax` error with the file name and the 1-based number of
the offending line.  A line without `=` instead panics
(`c4_counterexample`). -/
theorem c4_config_syntax_error (o : Str → Bool → Bool)
    (fsRoot fsPath : Str) (pre post : List Str) (badline : Str)
    (st : PathsMap) (hpre : initLoop o fsRoot fsPath 0 [] pre = .ok st)
    (hnc : ¬ List.isPrefixOf ";".toList badline)
    (id0 values0 : Str) (hsplit : splitOnceChar '=' badline = some (id0, values0))
    (hshort : ((splitOnChar '|' (trimStr values0)).map trimStr).length < 3) :
    initializeFs o fsRoot fsPath (pre ++ badline :: post)
      = .error (.invalidFsLtxSyntax fsPath (pre.length + 1)) := by
  unfold initializeFs
  rw [initLoop_append, hpre]
  show initLoop o fsRoot fsPath (0 + pre.length) st (badline :: post)
      = .error (.invalidFsLtxSyntax fsPath (pre.length + 1))
  simp only [Nat.zero_add, initLoop]
  have hline : initLine o fsRoot fsPath st (pre.length + 1) badline
      = .error (.invalidFsLtxSyntax fsPath (pre.length + 1)) := by
    unfold initLine
    rw [if_neg (by simpa using hnc), hsplit]
    dsimp only
    rcases hf : (splitOnChar '|' (trimStr values0)).map trimStr with _ | ⟨a, _ | ⟨b, _ | ⟨c, r⟩⟩⟩
    · rfl
    · rfl
    · rfl
    · rw [hf] at hshort
      simp only [List.length_cons] at hshort
      omega
  rw [hline]

/-- Witness for `c4_config_syntax_error` at a concrete configuration: a
comment line followed by the two-field line ` a = x | y`. -/
theorem c4_config_syntax_error_witness :
    (initLoop (fun _ _ => true) "/root".toList "fs.ltx".toList 0 [] [";comment".toList] = .ok []
        ∧ ¬ List.isPrefixOf ";".toList " a = x | y".toList
        ∧ splitOnceChar '=' " a = x | y".toList = some (" a ".toList, " x | y".toList)
        ∧ ((splitOnChar '|' (trimStr " x | y".toList)).map trimStr).length < 3)
      ∧ initializeFs (fun _ _ => true) "/root".toList "fs.ltx".toList
          ([";comment".toList] ++ " a = x | y".toList :: ["z".toList])
          = .error (.invalidFsLtxSyntax "fs.ltx".toList 2) := by
  refine ⟨⟨by rfl, by decide, by rfl, by decide⟩, ?_⟩
  exact c4_config_syntax_error (fun _ _ => true) "/root".toList "fs.ltx".toList
    [";comment".toList] ["z".toList] " a = x | y".toList [] (by rfl) (by decide)
    " a ".toList " x | y".toList (by rfl) (by decide)

/-! ## Theorems about the LZH decoder: claims C6, C9, C10 -/

theorem getb_parts (st : DecSt) :
    (getb st).2.son = st.son ∧ (getb st).2.freq = st.freq
      ∧ (getb st).2.parent = st.parent ∧ (getb st).2.text_buf = st.text_buf
      ∧ (getb st).2.output = st.output := by
  rcases st with ⟨inp, out, tb, fr, pa, so, gb, gl⟩
  cases inp <;> exact ⟨rfl, rfl, rfl, rfl, rfl⟩

theorem refill_parts (n : Nat) (st : DecSt) :
    (refill n st).son = st.son ∧ (refill n st).freq = st.freq
      ∧ (refill n st).parent = st.parent ∧ (refill n st).text_buf = st.text_buf
      ∧ (refill n st).output = st.output := by
  induction n generalizing st with
  | zero => exact ⟨rfl, rfl, rfl, rfl, rfl⟩
  | succ n ih =>
      unfold refill
      by_cases h : st.get_len ≤ 8
      · rw [if_pos h]
        obtain ⟨h1, h2, h3, h4, h5⟩ := getb_parts st
        obtain ⟨g1, g2, g3, g4, g5⟩ := ih
          { (getb st).2 with
            get_buf := (getb st).2.get_buf ||| (getb st).1 * 2 ^ (8 - (getb st).2.get_len),
            get_len := (getb st).2.get_len + 8 }
        refine ⟨?_, ?_, ?_, ?_, ?_⟩ <;> simp_all
      · rw [if_neg h]
        exact ⟨rfl, rfl, rfl, rfl, rfl⟩

theorem get_bit_parts (st : DecSt) :
    (get_bit st).2.son = st.son ∧ (get_bit st).2.freq = st.freq
      ∧ (get_bit st).2.parent = st.parent ∧ (get_bit st).2.text_buf = st.text_buf
      ∧ (get_bit st).2.output = st.output := by
  obtain ⟨h1, h2, h3, h4, h5⟩ := refill_parts 2 st
  exact ⟨h1, h2, h3, h4, h5⟩

theorem get_bit_le_one (st : DecSt) : (get_bit st).1 ≤ 1 := by
  have : (get_bit st).1 = ((refill 2 st).get_buf / 32768) % 2 := rfl
  rw [this]
  exact Nat.le_of_lt_succ (Nat.mod_lt _ (by norm_num))

theorem get_byte_parts (st : DecSt) :
    (get_byte st).2.son = st.son ∧ (get_byte st).2.freq = st.freq
      ∧ (get_byte st).2.parent = st.parent ∧ (get_byte st).2.text_buf = st.text_buf
      ∧ (get_byte st).2.output = st.output := by
  obtain ⟨h1, h2, h3, h4, h5⟩ := refill_parts 2 st
  exact ⟨h1, h2, h3, h4, h5⟩

/-- Claim C6: a stream whose little-endian `text_size` prefix is zero decodes
to the empty output, and nothing beyond the 4-byte prefix is read (the final
reader state still holds exactly the bytes after the prefix). -/
theorem c6_zero_text_size (b0 b1 b2 b3 : Nat) (rest : List Nat)
    (h : b0 % 256 + (b1 % 256) * 256 + (b2 % 256) * 65536
        + (b3 % 256) * 16777216 = 0) :
    decompress (b0 :: b1 :: b2 :: b3 :: rest) = .ok []
      ∧ ∃ st, decodeFull (b0 :: b1 :: b2 :: b3 :: rest) = .ok st
          ∧ st.input = rest ∧ st.output = [] := by
  have hfull : decodeFull (b0 :: b1 :: b2 :: b3 :: rest)
      = .ok { initialState (b0 :: b1 :: b2 :: b3 :: rest) with input := rest } := by
    unfold decodeFull
    dsimp only [initialState, readU32LEList]
    rw [h, if_pos rfl]
  refine ⟨?_, ⟨_, hfull, rfl, rfl⟩⟩
  unfold decompress
  rw [hfull]
  rfl

/-- Witness for `c6_zero_text_size`: the stream `00 00 00 00 63`. -/
theorem c6_zero_text_size_witness :
    (0 % 256 + (0 % 256) * 256 + (0 % 256) * 65536 + (0 % 256) * 16777216 = 0)
      ∧ decompress [0, 0, 0, 0, 99] = .ok []
      ∧ ∃ st, decodeFull [0, 0, 0, 0, 99] = .ok st
          ∧ st.input = [99] ∧ st.output = [] := by
  refine ⟨by decide, ?_⟩
  exact c6_zero_text_size 0 0 0 0 [99] (by decide)

theorem sonBound_upd {st : DecSt} (h : SonBound st) (i v : Nat)
    (hv : v < T + N_CHAR) : SonBound { st with son := upd st.son i v } := by
  intro x
  show upd st.son i v x < T + N_CHAR
  unfold upd
  by_cases hx : x = i
  · rw [if_pos hx]; exact hv
  · rw [if_neg hx]; exact h x

theorem shLeaves_sonBound (fuel : Nat) : ∀ (i : Nat) (st : DecSt),
    SonBound st → i + fuel ≤ N_CHAR → SonBound (shLeaves fuel i st) := by
  induction fuel with
  | zero => intro i st h _; exact h
  | succ fuel ih =>
      intro i st h hb
      show SonBound (shLeaves fuel (i + 1) _)
      apply ih
      · intro x
        show upd st.son i (i + T) x < T + N_CHAR
        unfold upd
        by_cases hx : x = i
        · rw [if_pos hx]
          have : i < N_CHAR := by omega
          omega
        · rw [if_neg hx]; exact h x
      · omega

theorem N_CHAR_eq : N_CHAR = 314 := by norm_num [N_CHAR, THRESHOLD, F]

theorem T_eq : T = 627 := by norm_num [T, N_CHAR, THRESHOLD, F]

theorem R_eq : R = 626 := by norm_num [R, T, N_CHAR, THRESHOLD, F]

theorem shInternal_sonBound (fuel : Nat) : ∀ (i j : Nat) (st : DecSt),
    SonBound st → i = 2 * (j - N_CHAR) → N_CHAR ≤ j →
    SonBound (shInternal fuel i j st) := by
  induction fuel with
  | zero => intro i j st h _ _; exact h
  | succ fuel ih =>
      intro i j st h hij hj
      unfold shInternal
      by_cases hjr : j ≤ R
      · rw [if_pos hjr]
        apply ih
        · intro x
          show upd st.son j i x < T + N_CHAR
          unfold upd
          by_cases hx : x = j
          · rw [if_pos hx]
            have h1 := N_CHAR_eq
            have h2 := R_eq
            have h3 := T_eq
            omega
          · rw [if_neg hx]; exact h x
        · omega
        · omega
      · rw [if_neg hjr]; exact h

theorem start_huff_sonBound {st : DecSt} (h : SonBound st) :
    SonBound (start_huff st) := by
  have h1 := shLeaves_sonBound N_CHAR 0 st h (by omega)
  have h2 := shInternal_sonBound T 0 N_CHAR _ h1 (by omega) (by omega)
  intro x
  show (shInternal T 0 N_CHAR (shLeaves N_CHAR 0 st)).son x < T + N_CHAR
  exact h2 x

theorem updateSwap_spec (st : DecSt) (c : Nat) (st2 : DecSt) (c2 : Nat)
    (h : SonBound st) (he : updateSwap st c = some (st2, c2)) :
    SonBound st2 ∧ st2.output = st.output := by
  unfold updateSwap at he
  by_cases hk : st.freq c > st.freq (c + 1)
  · rw [if_pos hk] at he
    cases hfs : findSwapTarget (T + 2) st (st.freq c) (c + 2) with
    | none => rw [hfs] at he; cases he
    | some l =>
        rw [hfs] at he
        dsimp only at he
        injection he with he
        injection he with he1 he2
        subst he1
        constructor
        · intro x
          show upd (upd st.son l (st.son c)) c (st.son l) x < T + N_CHAR
          unfold upd
          by_cases hx : x = c
          · rw [if_pos hx]; exact h l
          · rw [if_neg hx]
            by_cases hx2 : x = l
            · rw [if_pos hx2]; exact h c
            · rw [if_neg hx2]; exact h x
        · rfl
  · rw [if_neg hk] at he
    injection he with he
    injection he with he1 he2
    subst he1
    exact ⟨h, rfl⟩

theorem updateLoop_spec (fuel : Nat) : ∀ (st : DecSt) (c : Nat) (st' : DecSt),
    SonBound st → updateLoop fuel st c = some st' →
    SonBound st' ∧ st'.output = st.output := by
  induction fuel with
  | zero => intro st c st' _ he; cases he
  | succ fuel ih =>
      intro st c st' h he
      unfold updateLoop at he
      dsimp only at he
      have h1 : SonBound { st with freq := upd st.freq c (st.freq c + 1) } := h
      cases hsw : updateSwap { st with freq := upd st.freq c (st.freq c + 1) } c with
      | none => rw [hsw] at he; cases he
      | some p =>
          obtain ⟨st2, c2⟩ := p
          rw [hsw] at he
          dsimp only at he
          obtain ⟨h2, ho2⟩ := updateSwap_spec _ _ _ _ h1 hsw
          by_cases hc0 : st2.parent c2 = 0
          · rw [if_pos hc0] at he
            cases he
            exact ⟨h2, ho2⟩
          · rw [if_neg hc0] at he
            obtain ⟨ha, hb⟩ := ih st2 (st2.parent c2) st' h2 he
            exact ⟨ha, by rw [hb, ho2]⟩

theorem reconstLeaves_spec (fuel : Nat) : ∀ (i j : Nat) (st : DecSt),
    SonBound st →
    SonBound (reconstLeaves fuel i j st).2
      ∧ (reconstLeaves fuel i j st).2.output = st.output := by
  induction fuel with
  | zero => intro i j st h; exact ⟨h, rfl⟩
  | succ fuel ih =>
      intro i j st h
      unfold reconstLeaves
      by_cases hl : st.son i ≥ T
      · rw [if_pos hl]
        apply ih
        intro x
        show upd st.son j (st.son i) x < T + N_CHAR
        unfold upd
        by_cases hx : x = j
        · rw [if_pos hx]; exact h i
        · rw [if_neg hx]; exact h x
      · rw [if_neg hl]
        exact ih _ _ _ h

theorem shiftRightOne_bound {a : Nat → Nat} (h : ∀ x, a x < T + N_CHAR)
    (k j x : Nat) : shiftRightOne a k j x < T + N_CHAR := by
  unfold shiftRightOne
  by_cases hx : k + 1 ≤ x ∧ x ≤ j
  · rw [if_pos hx]; exact h _
  · rw [if_neg hx]; exact h x

theorem reconstRebuild_spec (fuel : Nat) : ∀ (i j : Nat) (st st' : DecSt),
    SonBound st → i = 2 * (j - N_CHAR) → N_CHAR ≤ j → j + fuel ≤ T →
    reconstRebuild fuel i j st = some st' →
    SonBound st' ∧ st'.output = st.output := by
  induction fuel with
  | zero => intro i j st st' h _ _ _ he; cases he; exact ⟨h, rfl⟩
  | succ fuel ih =>
      intro i j st st' h hij hj hjf he
      unfold reconstRebuild at he
      dsimp only at he
      cases hk : findK { st with freq := upd st.freq j (st.freq i + st.freq (i + 1)) }
          (st.freq i + st.freq (i + 1)) (j - 1) with
      | none => rw [hk] at he; cases he
      | some k0 =>
          rw [hk] at he
          dsimp only at he
          have hsonb : SonBound { st with
              freq := upd (shiftRightOne (upd st.freq j (st.freq i + st.freq (i + 1))) (k0 + 1) j)
                (k0 + 1) (st.freq i + st.freq (i + 1)),
              son := upd (shiftRightOne st.son (k0 + 1) j) (k0 + 1) i } := by
            intro x
            show upd (shiftRightOne st.son (k0 + 1) j) (k0 + 1) i x < T + N_CHAR
            unfold upd
            by_cases hx : x = k0 + 1
            · rw [if_pos hx]
              have hT := T_eq
              have hN := N_CHAR_eq
              omega
            · rw [if_neg hx]
              exact shiftRightOne_bound h _ _ _
          obtain ⟨ha, hb⟩ := ih (i + 2) (j + 1) _ st' hsonb (by omega) (by omega) (by omega) he
          exact ⟨ha, hb⟩

theorem reconstParents_son (fuel : Nat) : ∀ (i : Nat) (st : DecSt),
    (reconstParents fuel i st).son = st.son
      ∧ (reconstParents fuel i st).output = st.output := by
  induction fuel with
  | zero => intro i st; exact ⟨rfl, rfl⟩
  | succ fuel ih =>
      intro i st
      unfold reconstParents
      exact ih _ _

theorem reconst_spec {st st' : DecSt} (h : SonBound st)
    (he : reconst st = some st') : SonBound st' ∧ st'.output = st.output := by
  unfold reconst at he
  obtain ⟨h1, ho1⟩ := reconstLeaves_spec T 0 0 st h
  rcases hL : reconstLeaves T 0 0 st with ⟨j0, stL⟩
  rw [hL] at he h1 ho1
  dsimp only at he h1 ho1
  cases hr : reconstRebuild (T - N_CHAR) 0 N_CHAR stL with
  | none => rw [hr] at he; cases he
  | some st2 =>
      rw [hr] at he
      dsimp only at he
      cases he
      obtain ⟨h2, ho2⟩ := reconstRebuild_spec (T - N_CHAR) 0 N_CHAR stL st2 h1
        (by omega) (by omega) (by have := T_eq; have := N_CHAR_eq; omega) hr
      obtain ⟨hs3, ho3⟩ := reconstParents_son T 0 st2
      refine ⟨fun x => ?_, ?_⟩
      · rw [hs3]
        exact h2 x
      · rw [ho3, ho2, ho1]

theorem update_spec {st st' : DecSt} (c : Nat) (h : SonBound st)
    (he : update st c = some st') : SonBound st' ∧ st'.output = st.output := by
  unfold update at he
  by_cases hq : st.freq R = MAX_FREQ
  · rw [if_pos hq] at he
    cases hr : reconst st with
    | none => rw [hr] at he; cases he
    | some st1 =>
        rw [hr] at he
        dsimp only at he
        obtain ⟨h1, ho1⟩ := reconst_spec h hr
        obtain ⟨h2, ho2⟩ := updateLoop_spec (T + 1) st1 (st1.parent (c + T)) st' h1 he
        exact ⟨h2, by rw [ho2, ho1]⟩
  · rw [if_neg hq] at he
    dsimp only at he
    exact updateLoop_spec (T + 1) st (st.parent (c + T)) st' h he

theorem decodeCharWalk_spec (fuel : Nat) : ∀ (st : DecSt) (c c0 : Nat) (st' : DecSt),
    SonBound st → c < T + N_CHAR →
    decodeCharWalk fuel st c = some (c0, st') →
    T ≤ c0 ∧ c0 < T + N_CHAR ∧ SonBound st' ∧ st'.output = st.output := by
  induction fuel with
  | zero => intro st c c0 st' _ _ he; cases he
  | succ fuel ih =>
      intro st c c0 st' h hc he
      unfold decodeCharWalk at he
      by_cases hlt : c < T
      · rw [if_pos hlt] at he
        dsimp only at he
        obtain ⟨hson, _, _, _, hout⟩ := get_bit_parts st
        have h2 : SonBound (get_bit st).2 := by
          intro x; rw [hson]; exact h x
        have hc2 : (get_bit st).2.son (c + (get_bit st).1) < T + N_CHAR := h2 _
        obtain ⟨a, b, c', d⟩ := ih (get_bit st).2 _ c0 st' h2 hc2 he
        exact ⟨a, b, c', by rw [d, hout]⟩
      · rw [if_neg hlt] at he
        cases he
        exact ⟨Nat.le_of_not_lt hlt, hc, h, rfl⟩

theorem decode_char_spec {st : DecSt} {c : Nat} {st' : DecSt} (h : SonBound st)
    (he : decode_char st = some (c, st')) :
    c < N_CHAR ∧ SonBound st' ∧ st'.output = st.output := by
  unfold decode_char at he
  cases hw : decodeCharWalk (T + 1) st (st.son R) with
  | none => rw [hw] at he; cases he
  | some p =>
      obtain ⟨c0, st1⟩ := p
      rw [hw] at he
      dsimp only at he
      obtain ⟨hT, hub, h1, ho1⟩ := decodeCharWalk_spec (T + 1) st _ c0 st1 h (h R) hw
      cases hu : update st1 (c0 - T) with
      | none => rw [hu] at he; cases he
      | some st2 =>
          rw [hu] at he
          cases he
          obtain ⟨h2, ho2⟩ := update_spec _ h1 hu
          exact ⟨by omega, h2, by rw [ho2, ho1]⟩

theorem F_eq : F = 60 := by norm_num [F]

theorem THRESHOLD_eq : THRESHOLD = 2 := by norm_num [THRESHOLD]

theorem dpBits_parts (n : Nat) : ∀ (i : Nat) (st : DecSt),
    (dpBits n i st).2.son = st.son ∧ (dpBits n i st).2.output = st.output := by
  induction n with
  | zero => intro i st; exact ⟨rfl, rfl⟩
  | succ n ih =>
      intro i st
      unfold dpBits
      obtain ⟨hs, ho⟩ := ih (i * 2 + (get_bit st).1) (get_bit st).2
      obtain ⟨gs, _, _, _, go⟩ := get_bit_parts st
      exact ⟨by rw [hs, gs], by rw [ho, go]⟩

theorem decode_position_parts (st : DecSt) :
    (decode_position st).2.son = st.son ∧ (decode_position st).2.output = st.output := by
  unfold decode_position
  obtain ⟨gs, _, _, _, go⟩ := get_byte_parts st
  obtain ⟨hs, ho⟩ := dpBits_parts (D_LEN (get_byte st).1 - 2) (get_byte st).1 (get_byte st).2
  exact ⟨by rw [hs, gs], by rw [ho, go]⟩

theorem copyRun_spec (j : Nat) : ∀ (k i r count : Nat) (st : DecSt),
    (copyRun j k i r count st).1.son = st.son
      ∧ (copyRun j k i r count st).1.output.length = st.output.length + j
      ∧ (copyRun j k i r count st).2.2 = count + j := by
  induction j with
  | zero =>
      intro k i r count st
      exact ⟨rfl, by simp [copyRun], rfl⟩
  | succ j ih =>
      intro k i r count st
      unfold copyRun
      obtain ⟨hs, ho, hc⟩ := ih (k + 1) i ((r + 1) % N) (count + 1) _
      refine ⟨by rw [hs]; rfl, ?_, by rw [hc]; omega⟩
      rw [ho]
      show (putb st (st.text_buf ((i + k) % N))).output.length + j
          = st.output.length + (j + 1)
      simp only [putb, List.length_append, List.length_cons, List.length_nil]
      omega

theorem decodeLoop_zero (ts r count : Nat) (st : DecSt) :
    decodeLoop 0 ts r count st
      = if count < ts then none else some (st, r, count) := rfl

theorem decodeLoop_succ (fuel ts r count : Nat) (st : DecSt) :
    decodeLoop (fuel + 1) ts r count st
      = (if count < ts then
          match decode_char st with
          | none => none
          | some (c, st) =>
            if c < 256 then
              let st := putb st c
              let st := { st with text_buf := upd st.text_buf r (c % 256) }
              decodeLoop fuel ts ((r + 1) % N) (count + 1) st
            else
              let (pos, st) := decode_position st
              let i := wrapSub64 r (pos + 1) % N
              let j := c - 255 + THRESHOLD
              let (st, r', count') := copyRun j 0 i r count st
              decodeLoop fuel ts r' count' st
        else some (st, r, count)) := rfl

set_option maxHeartbeats 2000000 in
theorem decodeLoop_spec (fuel : Nat) :
    ∀ (ts r count : Nat) (st st' : DecSt) (r' count' : Nat),
    SonBound st →
    decodeLoop fuel ts r count st = some (st', r', count') →
    SonBound st' ∧ st'.output.length + count = st.output.length + count'
      ∧ count ≤ count'
      ∧ (count < ts → ts ≤ count' ∧ count' < ts + F)
      ∧ (ts ≤ count → count' = count) := by
  induction fuel with
  | zero =>
      intro ts r count st st' r' count' h he
      rw [decodeLoop_zero] at he
      by_cases hlt : count < ts
      · rw [if_pos hlt] at he; cases he
      · rw [if_neg hlt] at he
        injection he with he1
        injection he1 with ha hb
        injection hb with hb1 hb2
        subst ha; subst hb2
        exact ⟨h, rfl, le_refl _, fun hc => absurd hc hlt, fun _ => rfl⟩
  | succ fuel ih =>
      intro ts r count st st' r' count' h he
      rw [decodeLoop_succ] at he
      by_cases hlt : count < ts
      · rw [if_pos hlt] at he
        cases hdc : decode_char st with
        | none => rw [hdc] at he; cases he
        | some p =>
            obtain ⟨c, st2⟩ := p
            rw [hdc] at he
            dsimp only at he
            obtain ⟨hcN, h2, ho2⟩ := decode_char_spec h hdc
            have hF := F_eq
            have hNC := N_CHAR_eq
            have hTH := THRESHOLD_eq
            by_cases hc256 : c < 256
            · rw [if_pos hc256] at he
              have h3 : SonBound { putb st2 c with
                  text_buf := upd (putb st2 c).text_buf r (c % 256) } := fun x => h2 x
              obtain ⟨ha, hb, hcle, hd, hee⟩ :=
                ih ts ((r + 1) % N) (count + 1) _ st' r' count' h3 he
              have hlen : (putb st2 c).output.length = st.output.length + 1 := by
                simp only [putb, List.length_append, List.length_cons, List.length_nil]
                rw [ho2]
              have hb2 : st'.output.length + (count + 1)
                  = (putb st2 c).output.length + count' := hb
              rw [hlen] at hb2
              refine ⟨ha, by omega, by omega, fun _ => ?_, by omega⟩
              by_cases hlt2 : count + 1 < ts
              · exact ⟨(hd hlt2).1, (hd hlt2).2⟩
              · have := hee (by omega)
                omega
            · rw [if_neg hc256] at he
              rcases hdp : decode_position st2 with ⟨pos, st4⟩
              rw [hdp] at he
              dsimp only at he
              obtain ⟨hdps, hdpo⟩ := decode_position_parts st2
              rw [hdp] at hdps hdpo
              dsimp only at hdps hdpo
              rcases hcr : copyRun (c - 255 + THRESHOLD) 0
                  (wrapSub64 r (pos + 1) % N) r count st4 with ⟨st5, r5, count5⟩
              rw [hcr] at he
              dsimp only at he
              obtain ⟨hcs, hco, hcc⟩ := copyRun_spec (c - 255 + THRESHOLD) 0
                (wrapSub64 r (pos + 1) % N) r count st4
              rw [hcr] at hcs hco hcc
              dsimp only at hcs hco hcc
              have h5 : SonBound st5 := by
                intro x
                rw [hcs, hdps]
                exact h2 x
              obtain ⟨ha, hb, hcle, hd, hee⟩ := ih ts r5 count5 st5 st' r' count' h5 he
              have hjlo : 3 ≤ c - 255 + THRESHOLD := by omega
              have hjhi : c - 255 + THRESHOLD ≤ F := by omega
              have hlen5 : st5.output.length
                  = st.output.length + (c - 255 + THRESHOLD) := by
                rw [hco, hdpo, ho2]
              refine ⟨ha, by omega, by omega, fun _ => ?_, by omega⟩
              by_cases hlt2 : count5 < ts
              · exact hd hlt2
              · have := hee (by omega)
                omega
      · rw [if_neg hlt] at he
        injection he with he1
        injection he1 with ha hb
        injection hb with hb1 hb2
        subst ha; subst hb2
        exact ⟨h, rfl, le_refl _, fun hc => absurd hc hlt, fun _ => rfl⟩

theorem shLeaves_output (fuel : Nat) : ∀ (i : Nat) (st : DecSt),
    (shLeaves fuel i st).output = st.output := by
  induction fuel with
  | zero => intro i st; rfl
  | succ fuel ih => intro i st; exact ih _ _

theorem shInternal_output (fuel : Nat) : ∀ (i j : Nat) (st : DecSt),
    (shInternal fuel i j st).output = st.output := by
  induction fuel with
  | zero => intro i j st; rfl
  | succ fuel ih =>
      intro i j st
      unfold shInternal
      by_cases hjr : j ≤ R
      · rw [if_pos hjr]; exact ih _ _ _
      · rw [if_neg hjr]

theorem start_huff_output (st : DecSt) :
    (start_huff st).output = st.output := by
  unfold start_huff
  dsimp only
  rw [shInternal_output, shLeaves_output]

theorem loopStartState_output (input rest : List Nat) :
    (loopStartState input rest).output = [] := by
  unfold loopStartState
  dsimp only
  rw [start_huff_output]
  rfl

theorem loopStartState_son (input rest : List Nat) :
    (loopStartState input rest).son
      = (start_huff { initialState input with input := rest }).son := by
  unfold loopStartState
  dsimp only

theorem loopStartState_sonBound (input rest : List Nat) :
    SonBound (loopStartState input rest) := by
  intro x
  rw [loopStartState_son]
  refine start_huff_sonBound (fun y => ?_) x
  show (0 : Nat) < T + N_CHAR
  have := T_eq
  omega

theorem decodeFull_loop (input : List Nat) (ts : Nat) (rest : List Nat)
    (hread : readU32LEList input = some (ts, rest)) (hts : ¬ ts = 0) :
    decodeFull input
      = (match decodeLoop ts ts (N - F) 0 (loopStartState input rest) with
          | none => .error .stuck
          | some (st, _, _) => .ok st) := by
  unfold decodeFull
  dsimp only
  have hread2 : readU32LEList (initialState input).input = some (ts, rest) := hread
  rw [hread2]
  dsimp only
  rw [if_neg hts]

/-- Claim C9: whenever `decode` succeeds on a stream with a positive
`text_size`, the output holds at least `text_size` bytes and at most
`text_size + F - 1 = text_size + 59`: a back-reference whose copy begins
below `text_size` is copied in full, so the output can overshoot and is not
truncated. -/
theorem c9_output_length (input : List Nat) (ts : Nat) (rest out : List Nat)
    (hread : readU32LEList input = some (ts, rest)) (hts : 0 < ts)
    (hok : decompress input = .ok out) :
    ts ≤ out.length ∧ out.length ≤ ts + F - 1 := by
  have hD := decodeFull_loop input ts rest hread (by omega)
  unfold decompress at hok
  rw [hD] at hok
  cases hdl : decodeLoop ts ts (N - F) 0 (loopStartState input rest) with
  | none =>
      rw [hdl] at hok
      cases hok
  | some trip =>
      rcases trip with ⟨st2, r2, c2⟩
      rw [hdl] at hok
      dsimp only [Except.map] at hok
      injection hok with hout
      obtain ⟨_, hlen, _, hbounds, _⟩ := decodeLoop_spec ts ts (N - F) 0
        (loopStartState input rest) st2 r2 c2 (loopStartState_sonBound input rest) hdl
      rw [loopStartState_output] at hlen
      obtain ⟨hlo, hhi⟩ := hbounds hts
      have hF := F_eq
      simp only [List.length_nil] at hlen
      rw [← hout]
      omega

set_option maxRecDepth 200000 in
/-- Witness for `c9_output_length`: the 4-byte stream `01 00 00 00` (one
byte requested, end of input immediately after the prefix) decodes to the
single byte `0x74`. -/
theorem c9_output_length_witness :
    (readU32LEList [1, 0, 0, 0] = some (1, []) ∧ 0 < 1
        ∧ decompress [1, 0, 0, 0] = .ok [116])
      ∧ 1 ≤ [116].length ∧ [116].length ≤ 1 + F - 1 := by
  refine ⟨⟨by rfl, by decide, by rfl⟩, ?_⟩
  exact c9_output_length [1, 0, 0, 0] 1 [] [116] (by rfl) (by decide) (by rfl)

/-- Claim C10: from any state whose `son` entries are all below
`T + N_CHAR` (in particular every leaf entry, being `≥ T`, encodes a symbol
below `N_CHAR`), `decode_char` only returns symbols in `[0, N_CHAR) =
[0, 314)`; this bound is preserved by `start_huff`, `update` and `reconst`;
the leaf value reached by the walk is `≥ T` so `c - T` cannot underflow;
`c + T` stays inside the `parent` array of `T + N_CHAR + 1` entries; and a
back-reference's match length `c - 255 + THRESHOLD = c - 253` lies between
`THRESHOLD + 1 = 3` and `F = 60` inclusive. -/
theorem c10_decode_char_symbol_range (st : DecSt) (h : SonBound st) :
    (∀ c st', decode_char st = some (c, st') →
        c < N_CHAR ∧ SonBound st' ∧ c + T < T + N_CHAR + 1
          ∧ (256 ≤ c → 3 ≤ c - 255 + THRESHOLD ∧ c - 255 + THRESHOLD ≤ F)
          ∧ ∃ c0 st1, decodeCharWalk (T + 1) st (st.son R) = some (c0, st1)
              ∧ T ≤ c0 ∧ c0 < T + N_CHAR ∧ c = c0 - T)
      ∧ SonBound (start_huff st)
      ∧ (∀ c st', update st c = some st' → SonBound st')
      ∧ (∀ st', reconst st = some st' → SonBound st') := by
  refine ⟨?_, start_huff_sonBound h, fun c st' hu => (update_spec c h hu).1,
    fun st' hr => (reconst_spec h hr).1⟩
  intro c st' he
  have hparts := decode_char_spec h he
  unfold decode_char at he
  cases hw : decodeCharWalk (T + 1) st (st.son R) with
  | none => rw [hw] at he; cases he
  | some p =>
      rcases p with ⟨c0, st1⟩
      rw [hw] at he
      dsimp only at he
      obtain ⟨hT0, hub, _, _⟩ := decodeCharWalk_spec (T + 1) st _ c0 st1 h (h R) hw
      cases hu : update st1 (c0 - T) with
      | none => rw [hu] at he; cases he
      | some st2 =>
          rw [hu] at he
          dsimp only at he
          injection he with he1
          injection he1 with hec hest
          subst hest
          have hcc : c = c0 - T := hec.symm
          have hF := F_eq
          have hNC := N_CHAR_eq
          have hTeq := T_eq
          have hTH := THRESHOLD_eq
          refine ⟨hparts.1, hparts.2.1, by omega, fun h256 => ⟨by omega, by omega⟩,
            c0, st1, rfl, hT0, hub, hcc⟩

/-- Witness for `c10_decode_char_symbol_range` at the all-zero fresh decoder
state, whose `son` entries are all 0. -/
theorem c10_decode_char_symbol_range_witness :
    SonBound (initialState [])
      ∧ SonBound (start_huff (initialState []))
      ∧ (∀ c st', update (initialState []) c = some st' → SonBound st') := by
  have hsb : SonBound (initialState []) := by
    intro x
    show (0 : Nat) < T + N_CHAR
    have := T_eq
    omega
  have hc := c10_decode_char_symbol_range (initialState []) hsb
  exact ⟨hsb, hc.2.1, hc.2.2.1⟩


/-! ## Theorems about the archive layer (claims C2, C7, C8) -/

theorem readU32_serialize (n : Nat) (r : List Nat) (h : n < 4294967296) :
    readU32LEList (u32le n ++ r) = some (n, r) := by
  simp only [u32le, readU32LEList, List.cons_append, List.nil_append,
    Option.some.injEq, Prod.mk.injEq]
  exact ⟨by omega, trivial⟩

theorem openChunkAux_miss (id : Nat) (cs : List ChunkRec) : ∀ (fuel : Nat),
    (∀ ch ∈ cs, ch.ty < 4294967296 ∧ ch.payload.length < 4294967296
      ∧ ch.ty % 2147483648 ≠ id) →
    openChunkAux fuel (serializeChunks cs) id = .error .ioEof := by
  induction cs with
  | nil =>
      intro fuel _
      cases fuel with
      | zero => rfl
      | succ fuel => rfl
  | cons ch rest ih =>
      intro fuel hwf
      obtain ⟨hty, hlen, hne⟩ := hwf ch (List.mem_cons_self ch rest)
      cases fuel with
      | zero => rfl
      | succ fuel =>
          show openChunkAux (fuel + 1)
            ((u32le ch.ty ++ u32le ch.payload.length ++ ch.payload)
              ++ serializeChunks rest) id = .error .ioEof
          unfold openChunkAux
          rw [List.append_assoc, List.append_assoc,
            readU32_serialize ch.ty _ hty]
          dsimp only
          rw [readU32_serialize ch.payload.length _ hlen]
          dsimp only
          rw [if_neg hne, List.drop_left]
          exact ih fuel (fun c hc => hwf c (List.mem_cons_of_mem ch hc))

theorem openChunkAux_ok_isSome : ∀ (fuel : Nat) (s : List Nat) (id : Nat)
    (r : Option (List Nat)), openChunkAux fuel s id = .ok r → r.isSome := by
  intro fuel
  induction fuel with
  | zero => intro s id r he; cases he
  | succ fuel ih =>
      intro s id r he
      unfold openChunkAux at he
      cases h1 : readU32LEList s with
      | none => rw [h1] at he; cases he
      | some p1 =>
          rcases p1 with ⟨ty, s1⟩
          rw [h1] at he
          dsimp only at he
          cases h2 : readU32LEList s1 with
          | none => rw [h2] at he; cases he
          | some p2 =>
              rcases p2 with ⟨size, s2⟩
              rw [h2] at he
              dsimp only at he
              by_cases hid : ty % 2147483648 = id
              · rw [if_pos hid] at he
                by_cases hsz : size ≤ s2.length
                · rw [if_pos hsz] at he
                  by_cases hcf : 2147483648 ≤ ty
                  · rw [if_pos hcf] at he
                    cases hd : decompress (s2.take size) with
                    | error e => rw [hd] at he; cases he
                    | ok out =>
                        rw [hd] at he
                        injection he with he1
                        rw [← he1]
                        rfl
                  · rw [if_neg hcf] at he
                    injection he with he1
                    rw [← he1]
                    rfl
                · rw [if_neg hsz] at he; cases he
              · rw [if_neg hid] at he
                exact ih _ id r he

/-- Claim C2 is wrong about the code (the code contradicts its own dead
`None ⇒ auto_load = true` branch): for every archive whose chunks all have a
masked type different from 666, `open_chunk` hits end-of-file and returns
the `UnexpectedEof` error, so `process_archive` fails instead of reaching
the enumeration path; moreover `open_chunk` can never return `Ok(None)`, so
the branch of `process_archive` that treats a missing header as
`auto_load = true` is unreachable. -/
theorem c2_missing_header_is_error (canon : Str → Option Str)
    (readFileOracle : Str → Option (List Nat))
    (parseIni : List Nat → Option IniM) (ansi : List Nat → Option Str)
    (fs : FilesystemM) (path cpath : Str) (cs : List ChunkRec)
    (hcanon : canon path = some cpath)
    (hnew : fs.archives.any (fun a => a.path == cpath) = false)
    (hbytes : readFileOracle cpath = some (serializeChunks cs))
    (hwf : ∀ ch ∈ cs, ch.ty < 4294967296 ∧ ch.payload.length < 4294967296
      ∧ ch.ty % 2147483648 ≠ 666) :
    processArchive canon readFileOracle parseIni ansi fs path
        = .error (.chunk .ioEof)
      ∧ ∀ s id r, openChunk s id = .ok r → r.isSome := by
  constructor
  · unfold processArchive
    rw [hcanon]
    dsimp only
    rw [hnew, if_neg Bool.false_ne_true, hbytes]
    dsimp only
    have hmiss : openChunk (serializeChunks cs) ARCHIVE_HEADER_CHUNK_ID
        = .error .ioEof := openChunkAux_miss 666 cs _ hwf
    rw [hmiss]
  · intro s id r he
    exact openChunkAux_ok_isSome _ s id r he

/-- Witness for `c2_missing_header_is_error`: a file holding one chunk of
type 2 with an empty payload (bytes `02 00 00 00 00 00 00 00`). -/
theorem c2_missing_header_is_error_witness :
    ((fun p : Str => some p) "a".toList = some "a".toList
        ∧ serializeChunks [⟨2, []⟩] = [2, 0, 0, 0, 0, 0, 0, 0])
      ∧ processArchive (fun p => some p)
          (fun _ => some (serializeChunks [⟨2, []⟩])) (fun _ => none)
          (fun _ => none) ⟨[], [], FilesMap.empty, []⟩ "a".toList
          = .error (.chunk .ioEof) := by
  refine ⟨⟨rfl, by rfl⟩, ?_⟩
  exact (c2_missing_header_is_error (fun p => some p)
    (fun _ => some (serializeChunks [⟨2, []⟩])) (fun _ => none) (fun _ => none)
    ⟨[], [], FilesMap.empty, []⟩ "a".toList "a".toList [⟨2, []⟩]
    rfl (by rfl) rfl (by decide)).1

theorem loadArchive_archives (readFileOracle : Str → Option (List Nat))
    (ansi : List Nat → Option Str) (fs fs' : FilesystemM) (index : Nat)
    (he : loadArchive readFileOracle ansi fs index = .ok fs') :
    fs'.archives = fs.archives := by
  unfold loadArchive at he
  cases h1 : fs.archives.get? index with
  | none => rw [h1] at he; cases he
  | some archive =>
      rw [h1] at he
      dsimp only at he
      by_cases h2 : archive.header.isEmpty
      · rw [if_pos h2] at he; cases he
      · rw [if_neg h2] at he
        cases h3 : archive.header.getFrom "header".toList "entry_point".toList with
        | none => rw [h3] at he; cases he
        | some entry_point =>
            rw [h3] at he
            dsimp only at he
            by_cases h4 : entry_point == "gamedata".toList
            · rw [if_pos h4] at he; cases he
            · rw [if_neg h4] at he
              cases h5 : splitOnceChar '\\' entry_point with
              | none => rw [h5] at he; cases he
              | some p =>
                  rcases p with ⟨aliasName, add⟩
                  rw [h5] at he
                  dsimp only at he
                  cases h6 : readFileOracle archive.path with
                  | none => rw [h6] at he; cases he
                  | some bytes =>
                      rw [h6] at he
                      dsimp only at he
                      cases h7 : openChunk bytes 1 with
                      | error e => rw [h7] at he; cases he
                      | ok o =>
                          rw [h7] at he
                          cases o with
                          | none => cases he
                          | some chunk =>
                              dsimp only at he
                              cases h8 : processEntries ansi archive.index
                                  ((match PathsMap.find fs.paths aliasName with
                                    | some p => [p.path]
                                    | none => []) ++ [add])
                                  (chunkBuffersIter chunk) fs.files with
                              | error e => rw [h8] at he; cases he
                              | ok files =>
                                  rw [h8] at he
                                  injection he with he1
                                  rw [← he1]

/-- Claim C8: archive discovery is idempotent — when an archive with the
same canonical path is already present, `process_archive` returns `Ok`
immediately with the filesystem unchanged; and every successful
`process_archive` call preserves "index `i` holds the archive with stored
index `i`" (density / insertion order). -/
theorem c8_process_archive_idempotent (canon : Str → Option Str)
    (readFileOracle : Str → Option (List Nat))
    (parseIni : List Nat → Option IniM) (ansi : List Nat → Option Str)
    (fs : FilesystemM) (path cpath : Str)
    (hcanon : canon path = some cpath)
    (hmem : fs.archives.any (fun a => a.path == cpath) = true) :
    processArchive canon readFileOracle parseIni ansi fs path = .ok fs
      ∧ (∀ (fs2 fs2' : FilesystemM) (path2 : Str),
          processArchive canon readFileOracle parseIni ansi fs2 path2 = .ok fs2' →
          (∀ i a, fs2.archives.get? i = some a → a.index = i) →
          ∀ i a, fs2'.archives.get? i = some a → a.index = i) := by
  constructor
  · unfold processArchive
    rw [hcanon]
    dsimp only
    rw [hmem]
    rfl
  · intro fs2 fs2' path2 he hdense i a hget
    unfold processArchive at he
    cases hc2 : canon path2 with
    | none => rw [hc2] at he; cases he
    | some cpath2 =>
        rw [hc2] at he
        dsimp only at he
        by_cases hm2 : fs2.archives.any (fun a => a.path == cpath2)
        · rw [if_pos hm2] at he
          injection he with he1
          subst he1
          exact hdense i a hget
        · rw [if_neg hm2] at he
          cases hrf : readFileOracle cpath2 with
          | none => rw [hrf] at he; cases he
          | some bytes =>
              rw [hrf] at he
              dsimp only at he
              have hnewdense : ∀ (ini : IniM) i a,
                  ((fs2.archives ++ [(⟨cpath2, fs2.archives.length, IniM.empty,
                      bytes.length⟩ : ArchiveM)]).set fs2.archives.length
                    (⟨cpath2, fs2.archives.length, ini, bytes.length⟩ : ArchiveM)).get?
                      i = some a →
                  a.index = i := by
                intro ini i a hg
                by_cases hi : i = fs2.archives.length
                · subst hi
                  rw [List.get?_set_eq, List.get?_append_right (le_refl _)] at hg
                  · simp only [Nat.sub_self, List.get?] at hg
                    injection hg with hg1
                    rw [← hg1]
                · rw [List.get?_set_ne _ _ (fun h => hi h.symm)] at hg
                  have hlt : i < fs2.archives.length + 1 := by
                    have := List.get?_eq_some.mp hg
                    obtain ⟨hl, _⟩ := this
                    simpa using hl
                  have hlt2 : i < fs2.archives.length := by omega
                  rw [List.get?_append hlt2] at hg
                  exact hdense i a hg
              have happdense : ∀ i a,
                  (fs2.archives ++ [(⟨cpath2, fs2.archives.length, IniM.empty,
                      bytes.length⟩ : ArchiveM)]).get? i = some a →
                  a.index = i := by
                intro i a hg
                by_cases hi : i = fs2.archives.length
                · subst hi
                  rw [List.get?_append_right (le_refl _)] at hg
                  simp only [Nat.sub_self, List.get?] at hg
                  injection hg with hg1
                  rw [← hg1]
                · have hlt : i < fs2.archives.length + 1 := by
                    have := List.get?_eq_some.mp hg
                    obtain ⟨hl, _⟩ := this
                    simpa using hl
                  have hlt2 : i < fs2.archives.length := by omega
                  rw [List.get?_append hlt2] at hg
                  exact hdense i a hg
              cases hoc : openChunk bytes ARCHIVE_HEADER_CHUNK_ID with
              | error e => rw [hoc] at he; cases he
              | ok o =>
                  rw [hoc] at he
                  cases o with
                  | none =>
                      dsimp only at he
                      have harch := loadArchive_archives _ _ _ _ _ he
                      rw [harch] at hget
                      exact happdense i a hget
                  | some hbytes2 =>
                      dsimp only at he
                      cases hpi : parseIni hbytes2 with
                      | none => rw [hpi] at he; cases he
                      | some ini =>
                          rw [hpi] at he
                          dsimp only at he
                          by_cases hload : (((ini.getFrom "header".toList
                              "auto_load".toList).map is_bool_true).getD false) = true
                          · rw [if_pos hload] at he
                            have harch := loadArchive_archives _ _ _ _ _ he
                            rw [harch] at hget
                            exact hnewdense ini i a hget
                          · rw [if_neg hload] at he
                            injection he with he1
                            subst he1
                            exact hnewdense ini i a hget

/-- Witness for `c8_process_archive_idempotent`: a filesystem already
holding the archive `a`. -/
theorem c8_process_archive_idempotent_witness :
    ((fun p : Str => some p) "a".toList = some "a".toList
        ∧ ([⟨"a".toList, 0, IniM.empty, 0⟩] : List ArchiveM).any
            (fun a => a.path == "a".toList) = true)
      ∧ processArchive (fun p => some p) (fun _ => none) (fun _ => none)
          (fun _ => none) ⟨[], [], FilesMap.empty, [⟨"a".toList, 0, IniM.empty, 0⟩]⟩
          "a".toList
          = .ok ⟨[], [], FilesMap.empty, [⟨"a".toList, 0, IniM.empty, 0⟩]⟩ := by
  refine ⟨⟨rfl, by rfl⟩, ?_⟩
  exact (c8_process_archive_idempotent (fun p => some p) (fun _ => none)
    (fun _ => none) (fun _ => none)
    ⟨[], [], FilesMap.empty, [⟨"a".toList, 0, IniM.empty, 0⟩]⟩
    "a".toList "a".toList rfl (by rfl)).1

/-- Claim C7: `file_from_archive` maps the archive bytes at
`[ptr, ptr + size_compressed)`; when `size_compressed = size_real` it
returns exactly those bytes, and otherwise it returns the LZO1X
decompression of them, a buffer of exactly `size_real` bytes (LZO writes in
place into the `vec![0; size_real]` buffer, which the `lzo` oracle's length
property captures). -/
theorem c7_file_from_archive (readFileOracle : Str → Option (List Nat))
    (lzo : List Nat → Nat → Except Unit (List Nat)) (fs : FilesystemM)
    (archive : Nat) (file : VirtualFile) (arch : ArchiveM) (bytes : List Nat)
    (harch : fs.archives.get? archive = some arch)
    (hbytes : readFileOracle arch.path = some bytes)
    (hrange : file.ptr + file.size_compressed ≤ bytes.length)
    (hlzo : ∀ src n out, lzo src n = .ok out → out.length = n) :
    (file.size_compressed = file.size_real →
        file_from_archive readFileOracle lzo fs archive file
          = .ok ((bytes.drop file.ptr).take file.size_compressed))
      ∧ (file.size_compressed ≠ file.size_real →
          ∀ out, file_from_archive readFileOracle lzo fs archive file = .ok out →
            lzo ((bytes.drop file.ptr).take file.size_compressed) file.size_real
                = .ok out
              ∧ out.length = file.size_real) := by
  unfold file_from_archive
  rw [harch]
  dsimp only
  rw [hbytes]
  dsimp only
  rw [if_pos hrange]
  constructor
  · intro heq
    rw [if_pos (by simpa using heq)]
  · intro hne out hok
    rw [if_neg (by simpa using hne)] at hok
    cases hl : lzo ((bytes.drop file.ptr).take file.size_compressed)
        file.size_real with
    | error e => rw [hl] at hok; cases hok
    | ok buffer =>
        rw [hl] at hok
        injection hok with hok1
        subst hok1
        exact ⟨rfl, hlzo _ _ _ hl⟩

/-- Witness for `c7_file_from_archive`: a four-byte archive, an entry of
compressed and real size 2 at offset 1, and an `lzo` oracle that fills the
buffer with zeroes. -/
theorem c7_file_from_archive_witness :
    (([⟨"a".toList, 0, IniM.empty, 4⟩] : List ArchiveM).get? 0
          = some ⟨"a".toList, 0, IniM.empty, 4⟩
        ∧ (1 : Nat) + 2 ≤ ([1, 2, 3, 4] : List Nat).length)
      ∧ (2 = 2 →
          file_from_archive (fun _ => some [1, 2, 3, 4])
            (fun _ n => .ok (List.replicate n 0))
            ⟨[], [], FilesMap.empty, [⟨"a".toList, 0, IniM.empty, 4⟩]⟩ 0
            ⟨[], some 0, 2, 2, 1⟩
            = .ok ((([1, 2, 3, 4] : List Nat).drop 1).take 2)) := by
  refine ⟨⟨rfl, by decide⟩, ?_⟩
  exact (c7_file_from_archive (fun _ => some [1, 2, 3, 4])
    (fun _ n => .ok (List.replicate n 0))
    ⟨[], [], FilesMap.empty, [⟨"a".toList, 0, IniM.empty, 4⟩]⟩ 0
    ⟨[], some 0, 2, 2, 1⟩ ⟨"a".toList, 0, IniM.empty, 4⟩ [1, 2, 3, 4]
    rfl rfl (by decide)
    (fun src n out h => by injection h with h1; rw [← h1]; simp)).1

end XrayOxide
